import Mathlib

/-!
# Hydra water reminder: tracker core

A shallow embedding of `script.js` (the `app` object) and proofs about its
state-and-persistence logic.

Conventions of the embedding.

* The numeric fields of the tracker state hold integer-valued JavaScript
  numbers, embedded as `Int`.  Comparison and `Math.max` are exact.  Additions
  and subtractions are binary64 operations: their exact integer result is
  rounded to binary64 (`roundInt`), which changes it only beyond `2 ^ 53`.
* The only non-integer arithmetic of the program is the expression
  `Math.round((currentIntake / dailyGoal) * 100)` of `updateUI`.  It is embedded
  with the same model of IEEE-754 binary64 rounding (`roundBinary64`).
* `new Date().toDateString()` is an input of the operations that read the
  clock: the parameter `today`.
* `confirm(...)` is an input of `resetDay`: the parameter `confirmed`.
* `localStorage` is the field `storage` of `App`; the text stored there is
  produced by a model of `JSON.stringify` and read back by a model of
  `JSON.parse`.
-/

namespace Hydra

/-! ## JSON values and the JSON codec of the platform -/

/-- The values `JSON.parse` can produce, restricted to integer numbers. -/
inductive Json where
  | null
  | bool (b : Bool)
  | num (n : Int)
  | str (s : String)
  | arr (xs : List Json)
  | obj (kvs : List (String × Json))

/-- The character `"`. -/
def dquote : Char := Char.ofNat 34

/-- The character `\`. -/
def bslash : Char := Char.ofNat 92

/-- The character that opens an object. -/
def lbrace : Char := Char.ofNat 123

/-- The character that closes an object. -/
def rbrace : Char := Char.ofNat 125

/-- Lower-case hexadecimal digit of a number below 16. -/
def hexDigit (n : Nat) : Char :=
  if n < 10 then Char.ofNat (48 + n) else Char.ofNat (87 + n)

/-- The escape of one character inside a JSON string (`QuoteJSONString`):
two-character escapes for backspace, tab, line feed, form feed, carriage
return, the quote and the backslash, `\u00xx` for the other control characters,
and the character itself otherwise. -/
def quoteChar (c : Char) : List Char :=
  if c = dquote then [bslash, dquote]
  else if c = bslash then [bslash, bslash]
  else if c = Char.ofNat 8 then [bslash, 'b']
  else if c = Char.ofNat 9 then [bslash, 't']
  else if c = Char.ofNat 10 then [bslash, 'n']
  else if c = Char.ofNat 12 then [bslash, 'f']
  else if c = Char.ofNat 13 then [bslash, 'r']
  else if c.toNat < 32 then
    [bslash, 'u', '0', '0', hexDigit (c.toNat / 16), hexDigit (c.toNat % 16)]
  else [c]

/-- The escaped body of a JSON string, without the surrounding quotes. -/
def quoteBody : List Char → List Char
  | [] => []
  | c :: cs => quoteChar c ++ quoteBody cs

/-- A quoted JSON string. -/
def quoteString (s : String) : List Char :=
  dquote :: (quoteBody s.data ++ [dquote])

/-- Decimal digits of a natural number, most significant first, prepended to
`acc`; `fuel` bounds the number of digits. -/
def decDigits : Nat → Nat → List Char → List Char
  | 0, _, acc => acc
  | fuel + 1, n, acc =>
    if n / 10 = 0 then Char.ofNat (48 + n % 10) :: acc
    else decDigits fuel (n / 10) (Char.ofNat (48 + n % 10) :: acc)

/-- Decimal numeral of a natural number (`Number.prototype.toString` on a
non-negative integer). -/
def natToDec (n : Nat) : List Char := decDigits (n + 1) n []

/-- Decimal numeral of an integer. -/
def intToDec : Int → List Char
  | Int.ofNat n => natToDec n
  | Int.negSucc n => '-' :: natToDec (n + 1)

mutual
/-- Text of a value as written by `JSON.stringify` (no indentation). -/
def stringify : Json → List Char
  | .null => ['n', 'u', 'l', 'l']
  | .bool true => ['t', 'r', 'u', 'e']
  | .bool false => ['f', 'a', 'l', 's', 'e']
  | .num n => intToDec n
  | .str s => quoteString s
  | .arr [] => ['[', ']']
  | .arr (v :: vs) => '[' :: (stringify v ++ stringifyElems vs)
  | .obj [] => [lbrace, rbrace]
  | .obj ((k, v) :: kvs) =>
    lbrace :: (quoteString k ++ ':' :: (stringify v ++ stringifyMembers kvs))
/-- The elements of an array after the first one, each preceded by a comma,
and the closing bracket. -/
def stringifyElems : List Json → List Char
  | [] => [']']
  | v :: vs => ',' :: (stringify v ++ stringifyElems vs)
/-- The members of an object after the first one, each preceded by a comma,
and the closing brace. -/
def stringifyMembers : List (String × Json) → List Char
  | [] => [rbrace]
  | (k, v) :: kvs =>
    ',' :: (quoteString k ++ ':' :: (stringify v ++ stringifyMembers kvs))
end

/-- JSON white space: space, tab, line feed, carriage return. -/
def isJsonWs (c : Char) : Bool :=
  c = ' ' || c = Char.ofNat 9 || c = Char.ofNat 10 || c = Char.ofNat 13

/-- Drop leading JSON white space. -/
def skipWs : List Char → List Char
  | [] => []
  | c :: cs => if isJsonWs c then skipWs cs else c :: cs

/-- Value of a hexadecimal digit, either case. -/
def hexVal (c : Char) : Option Nat :=
  if 48 ≤ c.toNat ∧ c.toNat ≤ 57 then some (c.toNat - 48)
  else if 97 ≤ c.toNat ∧ c.toNat ≤ 102 then some (c.toNat - 87)
  else if 65 ≤ c.toNat ∧ c.toNat ≤ 70 then some (c.toNat - 55)
  else none

/-- Value of four hexadecimal digits. -/
def hex4 (a b c d : Char) : Option Nat :=
  match hexVal a, hexVal b, hexVal c, hexVal d with
  | some x, some y, some z, some w => some (((x * 16 + y) * 16 + z) * 16 + w)
  | _, _, _, _ => none

/-- The character denoted by a two-character escape `\e`. -/
def unescape (e : Char) : Option Char :=
  if e = dquote then some dquote
  else if e = bslash then some bslash
  else if e = '/' then some '/'
  else if e = 'b' then some (Char.ofNat 8)
  else if e = 'f' then some (Char.ofNat 12)
  else if e = 'n' then some (Char.ofNat 10)
  else if e = 'r' then some (Char.ofNat 13)
  else if e = 't' then some (Char.ofNat 9)
  else none

/-- Put a character in front of a parsed string body. -/
def consChar (c : Char) (r : Option (List Char × List Char)) :
    Option (List Char × List Char) :=
  match r with
  | some (s, rest) => some (c :: s, rest)
  | none => none

/-- Four hexadecimal digits at the head of the text, and what follows. -/
def takeHex4 : List Char → Option (Nat × List Char)
  | h1 :: h2 :: h3 :: h4 :: rest =>
    match hex4 h1 h2 h3 h4 with
    | some u => some (u, rest)
    | none => none
  | _ => none

/-- The character denoted by a `\u` escape, after the `u`.  The escape of a
high surrogate must be followed by the `\u` escape of a low surrogate, and the
pair denotes one character; an unpaired surrogate has no counterpart among the
characters of the embedding and is rejected. -/
def parseUnicodeEscape (cs : List Char) : Option (Char × List Char) :=
  match takeHex4 cs with
  | none => none
  | some (u, rest) =>
    if u < 55296 ∨ 57344 ≤ u then some (Char.ofNat u, rest)
    else if u < 56320 then
      match rest with
      | b :: x :: rest1 =>
        if b = bslash ∧ x = 'u' then
          match takeHex4 rest1 with
          | some (lo, rest2) =>
            if 56320 ≤ lo ∧ lo < 57344 then
              some (Char.ofNat (65536 + (u - 55296) * 1024 + (lo - 56320)), rest2)
            else none
          | none => none
        else none
      | _ => none
    else none

/-- The character denoted by an escape, after the backslash, and what
follows. -/
def parseEscape : List Char → Option (Char × List Char)
  | [] => none
  | e :: rest =>
    if e = 'u' then parseUnicodeEscape rest
    else
      match unescape e with
      | some ch => some (ch, rest)
      | none => none

/-- Parse the body of a JSON string, after the opening quote, up to and
including the closing quote.  Raw control characters are a syntax error.
`fuel` bounds the number of characters of the string. -/
def parseStringBody : Nat → List Char → Option (List Char × List Char)
  | 0, _ => none
  | _ + 1, [] => none
  | fuel + 1, c :: rest =>
    if c = dquote then some ([], rest)
    else if c = bslash then
      match parseEscape rest with
      | some (ch, rest1) => consChar ch (parseStringBody fuel rest1)
      | none => none
    else if c.toNat < 32 then none
    else consChar c (parseStringBody fuel rest)

/-- Parse a JSON string after its opening quote; the length of the text is
fuel enough. -/
def parseString (cs : List Char) : Option (List Char × List Char) :=
  parseStringBody cs.length cs

/-- Is the character a decimal digit. -/
def isDigit (c : Char) : Bool := decide (48 ≤ c.toNat) && decide (c.toNat ≤ 57)

/-- Split off the longest prefix of decimal digits. -/
def spanDigits : List Char → List Char × List Char
  | [] => ([], [])
  | c :: cs =>
    if isDigit c then ((spanDigits cs).1.cons c, (spanDigits cs).2) else ([], c :: cs)

/-- Value of a list of decimal digits, most significant first. -/
def digitsValue (ds : List Char) : Nat :=
  ds.foldl (fun acc c => acc * 10 + (c.toNat - 48)) 0

/-- Parse an unsigned JSON integer: `0`, or a non-zero digit followed by
digits.  A fraction or an exponent after it lies outside the integer fragment
of the embedding and is rejected. -/
def parseNat (cs : List Char) : Option (Nat × List Char) :=
  match spanDigits cs with
  | ([], _) => none
  | (d :: ds, rest) =>
    if d = '0' ∧ ds ≠ [] then none
    else
      match rest with
      | c :: _ =>
        if c = '.' ∨ c = 'e' ∨ c = 'E' then none
        else some (digitsValue (d :: ds), rest)
      | [] => some (digitsValue (d :: ds), rest)

/-- Parse a JSON number of the integer fragment. -/
def parseNumber : List Char → Option (Json × List Char)
  | [] => none
  | c :: cs =>
    if c = '-' then
      match parseNat cs with
      | some (n, rest) => some (Json.num (-(n : Int)), rest)
      | none => none
    else
      match parseNat (c :: cs) with
      | some (n, rest) => some (Json.num (n : Int), rest)
      | none => none

/-- Consume the given characters. -/
def expect : List Char → List Char → Option (List Char)
  | [], cs => some cs
  | _ :: _, [] => none
  | k :: ks, c :: cs => if c = k then expect ks cs else none

mutual
/-- Parse one JSON value, skipping the white space in front of it; `fuel`
bounds the number of nested calls. -/
def parseValue : Nat → List Char → Option (Json × List Char)
  | 0, _ => none
  | fuel + 1, cs =>
    match skipWs cs with
    | [] => none
    | c :: rest =>
      if c = dquote then
        match parseString rest with
        | some (s, rest1) => some (Json.str (String.mk s), rest1)
        | none => none
      else if c = '[' then
        match skipWs rest with
        | [] => none
        | c1 :: rest1 =>
          if c1 = ']' then some (Json.arr [], rest1)
          else
            match parseElems fuel (c1 :: rest1) with
            | some (xs, rest2) => some (Json.arr xs, rest2)
            | none => none
      else if c = lbrace then
        match skipWs rest with
        | [] => none
        | c1 :: rest1 =>
          if c1 = rbrace then some (Json.obj [], rest1)
          else
            match parseMembers fuel (c1 :: rest1) with
            | some (kvs, rest2) => some (Json.obj kvs, rest2)
            | none => none
      else if c = 'n' then
        match expect ['u', 'l', 'l'] rest with
        | some rest1 => some (Json.null, rest1)
        | none => none
      else if c = 't' then
        match expect ['r', 'u', 'e'] rest with
        | some rest1 => some (Json.bool true, rest1)
        | none => none
      else if c = 'f' then
        match expect ['a', 'l', 's', 'e'] rest with
        | some rest1 => some (Json.bool false, rest1)
        | none => none
      else parseNumber (c :: rest)
/-- Parse the elements of a non-empty array up to and including the closing
bracket. -/
def parseElems : Nat → List Char → Option (List Json × List Char)
  | 0, _ => none
  | fuel + 1, cs =>
    match parseValue fuel cs with
    | none => none
    | some (v, rest) =>
      match skipWs rest with
      | [] => none
      | c :: rest1 =>
        if c = ',' then
          match parseElems fuel rest1 with
          | some (vs, rest2) => some (v :: vs, rest2)
          | none => none
        else if c = ']' then some ([v], rest1)
        else none
/-- Parse the members of a non-empty object up to and including the closing
brace. -/
def parseMembers : Nat → List Char → Option (List (String × Json) × List Char)
  | 0, _ => none
  | fuel + 1, cs =>
    match skipWs cs with
    | [] => none
    | q :: rest =>
      if q = dquote then
        match parseString rest with
        | none => none
        | some (k, rest1) =>
          match skipWs rest1 with
          | [] => none
          | c :: rest2 =>
            if c = ':' then
              match parseValue fuel rest2 with
              | none => none
              | some (v, rest3) =>
                match skipWs rest3 with
                | [] => none
                | c1 :: rest4 =>
                  if c1 = ',' then
                    match parseMembers fuel rest4 with
                    | some (kvs, rest5) => some ((String.mk k, v) :: kvs, rest5)
                    | none => none
                  else if c1 = rbrace then some ([(String.mk k, v)], rest4)
                  else none
            else none
      else none
end

/-- Model of `JSON.parse`: one value surrounded by optional white space.  The
result is `none` when `JSON.parse` throws a `SyntaxError`, and also for a text
outside the fragment of the embedding (a number with a fraction or an
exponent, an unpaired surrogate escape).  The fuel is the length of the text
plus one, which no parse exhausts. -/
def jsonParse (text : String) : Option Json :=
  match parseValue (text.data.length + 1) text.data with
  | some (v, rest) =>
    match skipWs rest with
    | [] => some v
    | _ :: _ => none
  | none => none

/-- Model of `JSON.stringify` on a JSON value. -/
def jsonStringify (v : Json) : String := String.mk (stringify v)

/-! ## IEEE-754 binary64 rounding, for the percentage of `updateUI` -/

/-- Number of binary digits of `n`, by repeated halving; `fuel` bounds the
number of halvings. -/
def bitsAux : Nat → Nat → Nat
  | 0, _ => 0
  | fuel + 1, n => if n = 0 then 0 else bitsAux fuel (n / 2) + 1

/-- Number of binary digits of `n`: `2 ^ (bitLength n - 1) ≤ n < 2 ^ bitLength n`
for positive `n`. -/
def bitLength (n : Nat) : Nat := bitsAux n n

/-- The magnitude of a finite binary64 number, `mant * 2 ^ exp`. -/
structure Mag where
  mant : Nat
  exp : Int

/-- Numerator of the magnitude as a fraction. -/
def Mag.num (x : Mag) : Nat := if 0 ≤ x.exp then x.mant * 2 ^ x.exp.toNat else x.mant

/-- Denominator of the magnitude as a fraction, a power of two. -/
def Mag.den (x : Mag) : Nat := if 0 ≤ x.exp then 1 else 2 ^ (-x.exp).toNat

/-- Numerator of `N / D / 2 ^ e`. -/
def scaleNum (N : Nat) (e : Int) : Nat := if 0 ≤ e then N else N * 2 ^ (-e).toNat

/-- Denominator of `N / D / 2 ^ e`. -/
def scaleDen (D : Nat) (e : Int) : Nat := if 0 ≤ e then D * 2 ^ e.toNat else D

/-- The fraction `n / d` (`0 < d`) rounded to the nearest integer, ties to the
even one. -/
def roundHalfEven (n d : Nat) : Nat :=
  if 2 * (n % d) < d then n / d
  else if d < 2 * (n % d) then n / d + 1
  else if (n / d) % 2 = 0 then n / d
  else n / d + 1

/-- The exponent `e` for which `N / D / 2 ^ e` lies in `[2 ^ 52, 2 ^ 53)`, for
positive `N` and `D`: the digit counts place `N / D / 2 ^ e0` in
`(2 ^ 52, 2 ^ 54)`, and one comparison decides between `e0` and `e0 + 1`. -/
def binaryExponent (N D : Nat) : Int :=
  let e0 : Int := (bitLength N : Int) - (bitLength D : Int) - 53
  if scaleNum N e0 / scaleDen D e0 < 2 ^ 53 then e0 else e0 + 1

/-- The binary64 number nearest to the fraction `N / D` (`0 < D`), ties to the
even significand: with the exponent `e` of `binaryExponent`, the quotient
`N / D / 2 ^ e` is rounded to an integer significand.  The exponent is not
bounded: the model is exact for results in the normal range of binary64, which
contains every non-zero quotient of two safe integers and its product with
100. -/
def roundBinary64 (N D : Nat) : Mag :=
  if N = 0 then ⟨0, 0⟩
  else
    ⟨roundHalfEven (scaleNum N (binaryExponent N D)) (scaleDen D (binaryExponent N D)),
      binaryExponent N D⟩

/-- Model of `Math.round` on the finite number `± x`: the integer
`floor (± x + 1/2)`; a result `-0` is the integer `0`. -/
def jsRound (neg : Bool) (x : Mag) : Int :=
  let num : Int := if neg then -(x.num : Int) else (x.num : Int)
  (2 * num + (x.den : Int)) / (2 * (x.den : Int))

/-- The magnitude of the binary64 value of `(c / d) * 100` for magnitudes `c`
and `d` of the operands, `0 < d`: the quotient is rounded to binary64, and so is
the product of the rounded quotient with 100. -/
def quotientTimes100 (c d : Nat) : Mag :=
  roundBinary64 (100 * (roundBinary64 c d).num) (roundBinary64 c d).den

/-- The binary64 result of an addition or a subtraction of two integers whose
exact result is `z`: the integer nearest to `z` among the binary64 numbers, ties
to the even significand.  It is `z` itself for `|z| ≤ 2 ^ 53`.  The exponent is
not bounded, as in `roundBinary64`. -/
def roundInt (z : Int) : Int :=
  if z < 0 then
    -(((roundBinary64 z.natAbs 1).num / (roundBinary64 z.natAbs 1).den : Nat) : Int)
  else (((roundBinary64 z.natAbs 1).num / (roundBinary64 z.natAbs 1).den : Nat) : Int)

/-- The values the percentage of `updateUI` can take: `NaN`, `-Infinity`, or
an integer. -/
inductive Percent where
  | nan
  | negInf
  | fin (n : Int)
  deriving DecidableEq

/-- The expression `Math.min(100, Math.round((currentIntake / dailyGoal) * 100))`
of `updateUI`, for integer `currentIntake = c` and `dailyGoal = d`.  Division by
zero gives `NaN` (`0 / 0`), `Infinity` (clamped to 100 by `Math.min`) or
`-Infinity`.  Otherwise the sign is that of the quotient, the magnitude is
`quotientTimes100`, and `Math.round` and `Math.min` are exact. -/
def percentage (c d : Int) : Percent :=
  if d = 0 then
    if c = 0 then Percent.nan
    else if 0 < c then Percent.fin 100
    else Percent.negInf
  else
    let neg : Bool := decide (c < 0) != decide (d < 0)
    Percent.fin (min 100 (jsRound neg (quotientTimes100 c.natAbs d.natAbs)))

/-! ## Tracker state and the page -/

/-- The object `app.state`. -/
structure State where
  currentIntake : Int
  dailyGoal : Int
  streak : Int
  lastLogDate : Option String
  history : List Json

/-- The initial value of `app.state`. -/
def defaultState : State :=
  { currentIntake := 0, dailyGoal := 2500, streak := 0, lastLogDate := none, history := [] }

/-- What `updateUI` writes into the page: the numbers shown in
`#current-intake`, `#goal-display`, `#remaining-intake` (before `' ml'`),
`#streak-count` (before `' Days'`), `#percentage-text` (before `'%'`, also the
argument of `setProgress`), and the text of `#motivational-message`. -/
structure View where
  currentIntake : Int
  goalDisplay : Int
  remaining : Int
  streak : Int
  percentage : Percent
  message : String

/-- The tracker together with the parts of its environment it reads and
writes: `app.state`, the entry `hydraData` of `localStorage`, the page, the
value of the goal input, whether the settings dialog is hidden, and two
counters that record how often `localStorage.setItem` and `triggerConfetti`
have run. -/
structure App where
  state : State
  storage : Option String
  view : View
  goalInput : String
  settingsHidden : Bool
  saves : Nat
  confetti : Nat

/-- The object `JSON.stringify` sees for `app.state`. -/
def State.toJson (s : State) : Json :=
  Json.obj
    [("currentIntake", Json.num s.currentIntake),
     ("dailyGoal", Json.num s.dailyGoal),
     ("streak", Json.num s.streak),
     ("lastLogDate", match s.lastLogDate with
        | none => Json.null
        | some d => Json.str d),
     ("history", Json.arr s.history)]

/-- The value of key `k` in a parsed object; of several members with the same
key the last one counts. -/
def lookupLast (k : String) : List (String × Json) → Option Json
  | [] => none
  | (k1, v) :: kvs =>
    match lookupLast k kvs with
    | some w => some w
    | none => if k1 = k then some v else none

/-- A numeric field after the spread: the parsed value when the key is
present, the old value otherwise; `none` when the parsed value is not a number
and the field leaves the data model. -/
def mergeNum (k : String) (kvs : List (String × Json)) (old : Int) : Option Int :=
  match lookupLast k kvs with
  | none => some old
  | some (Json.num n) => some n
  | some _ => none

/-- The field `lastLogDate` after the spread. -/
def mergeDate (kvs : List (String × Json)) (old : Option String) : Option (Option String) :=
  match lookupLast "lastLogDate" kvs with
  | none => some old
  | some Json.null => some none
  | some (Json.str d) => some (some d)
  | some _ => none

/-- The field `history` after the spread. -/
def mergeHistory (kvs : List (String × Json)) (old : List Json) : Option (List Json) :=
  match lookupLast "history" kvs with
  | none => some old
  | some (Json.arr xs) => some xs
  | some _ => none

/-- The spread `{ ...this.state, ...parsed }`: every key of a parsed object
overrides the field of that name.  A parsed value that is not an object
contributes no field of the state, and keys other than the five fields are not
part of the embedding.  The result is `none` when a field would receive a value
outside the data model. -/
def mergeParsed (s : State) : Json → Option State
  | Json.obj kvs =>
    match mergeNum "currentIntake" kvs s.currentIntake,
          mergeNum "dailyGoal" kvs s.dailyGoal,
          mergeNum "streak" kvs s.streak,
          mergeDate kvs s.lastLogDate,
          mergeHistory kvs s.history with
    | some c, some g, some k, some d, some h =>
      some { currentIntake := c, dailyGoal := g, streak := k, lastLogDate := d, history := h }
    | _, _, _, _, _ => none
  | _ => some s

/-- The function `loadData`.  Nothing happens when the entry is absent or the
empty string.  The result is `none` when `JSON.parse` throws, or when the
record lies outside the fragment of the embedding. -/
def loadData (a : App) : Option App :=
  match a.storage with
  | none => some a
  | some text =>
    if text = "" then some a
    else
      match jsonParse text with
      | none => none
      | some j =>
        match mergeParsed a.state j with
        | none => none
        | some s => some { a with state := s }

/-- The function `saveData`. -/
def saveData (a : App) : App :=
  { a with storage := some (jsonStringify a.state.toJson), saves := a.saves + 1 }

/-- The function `updateMessage`; every comparison with `NaN` or `-Infinity`
is false. -/
def updateMessage : Percent → String
  | Percent.fin n =>
    if 100 ≤ n then "Goal reached! Amazing work! 🎉"
    else if 75 ≤ n then "Almost there! Keep it up!"
    else if 50 ≤ n then "Halfway through!"
    else if 25 ≤ n then "Off to a good start!"
    else "Stay hydrated!"
  | _ => "Stay hydrated!"

/-- The page after `updateUI` for a given state. -/
def render (s : State) : View :=
  { currentIntake := s.currentIntake,
    goalDisplay := s.dailyGoal,
    remaining := max 0 (roundInt (s.dailyGoal - s.currentIntake)),
    streak := s.streak,
    percentage := percentage s.currentIntake s.dailyGoal,
    message := updateMessage (percentage s.currentIntake s.dailyGoal) }

/-- The function `updateUI`. -/
def updateUI (a : App) : App := { a with view := render a.state }

/-- The function `animateMessage`, up to the timer it starts; the timer later
runs `updateUI`. -/
def animateMessage (text : String) (a : App) : App :=
  { a with view := { a.view with message := text } }

/-- The function `triggerConfetti`. -/
def triggerConfetti (a : App) : App := { a with confetti := a.confetti + 1 }

/-- The function `checkDateReset`; `today` is `new Date().toDateString()`.
The dates computed inside the outer branch are not used. -/
def checkDateReset (today : String) (a : App) : App :=
  if a.state.lastLogDate ≠ some today then
    saveData { a with state := { a.state with currentIntake := 0, lastLogDate := some today } }
  else a

/-- The function `addWater`; `today` is `new Date().toDateString()`.  The
sum `currentIntake + amount`, the difference `currentIntake - amount` of the
test, and `streak + 1` are binary64 results. -/
def addWater (today : String) (amount : Int) (a : App) : App :=
  let s1 : State :=
    { a.state with
      currentIntake := roundInt (a.state.currentIntake + amount), lastLogDate := some today }
  let a1 : App := { a with state := s1 }
  let a2 : App :=
    if s1.dailyGoal ≤ s1.currentIntake ∧ roundInt (s1.currentIntake - amount) < s1.dailyGoal then
      triggerConfetti { a1 with state := { s1 with streak := roundInt (s1.streak + 1) } }
    else a1
  animateMessage "Great job! 💧" (updateUI (saveData a2))

/-- The function `undoLast`; the difference `currentIntake - 250` is a binary64
result. -/
def undoLast (a : App) : App :=
  if 0 < a.state.currentIntake then
    updateUI (saveData
      { a with
        state := { a.state with currentIntake := max 0 (roundInt (a.state.currentIntake - 250)) } })
  else a

/-- The function `resetDay`; `confirmed` is the answer of `confirm`. -/
def resetDay (confirmed : Bool) (a : App) : App :=
  if confirmed then
    updateUI (saveData { a with state := { a.state with currentIntake := 0 } })
  else a

/-! ## The goal input: `val > 0` and `parseInt` -/

/-- White space of string-to-number conversion and of `parseInt`
(`WhiteSpace` and `LineTerminator`). -/
def isStrWs (c : Char) : Bool :=
  let n := c.toNat
  n = 9 || n = 10 || n = 11 || n = 12 || n = 13 || n = 32 || n = 160 || n = 5760 ||
  (decide (8192 ≤ n) && decide (n ≤ 8202)) || n = 8232 || n = 8233 || n = 8239 ||
  n = 8287 || n = 12288 || n = 65279

/-- Drop leading white space. -/
def trimStart : List Char → List Char
  | [] => []
  | c :: cs => if isStrWs c then trimStart cs else c :: cs

/-- Drop leading and trailing white space. -/
def trimBoth (cs : List Char) : List Char :=
  (trimStart (trimStart cs).reverse).reverse

/-- Value of a digit in the given radix (10 or 16). -/
def radixDigit (radix : Nat) (c : Char) : Option Nat :=
  match hexVal c with
  | some v => if v < radix then some v else none
  | none => none

/-- Longest prefix of digits of the radix, as their values. -/
def takeDigits (radix : Nat) : List Char → List Nat
  | [] => []
  | c :: cs =>
    match radixDigit radix c with
    | some v => v :: takeDigits radix cs
    | none => []

/-- Value of a list of digits in the radix, most significant first. -/
def radixValue (radix : Nat) (ds : List Nat) : Nat :=
  ds.foldl (fun acc v => acc * radix + v) 0

/-- Model of `parseInt(string)` without a radix argument: leading white space
is dropped, a sign is read, a prefix `0x` or `0X` selects radix 16, and the
longest prefix of digits is converted; `none` is `NaN`.  The value is the exact
integer. -/
def parseInt (s : String) : Option Int :=
  let cs := trimStart s.data
  let neg : Bool := match cs with
    | c :: _ => c = '-'
    | [] => false
  let cs1 : List Char := match cs with
    | c :: rest => if c = '-' ∨ c = '+' then rest else cs
    | [] => cs
  let hex : Bool := match cs1 with
    | z :: x :: _ => z = '0' && (x = 'x' || x = 'X')
    | _ => false
  let radix : Nat := if hex then 16 else 10
  let cs2 : List Char := if hex then cs1.drop 2 else cs1
  match takeDigits radix cs2 with
  | [] => none
  | d :: ds =>
    if neg then some (-(radixValue radix (d :: ds) : Int))
    else some (radixValue radix (d :: ds) : Int)

/-- Does the exact decimal `mant * 10 ^ exp10` round to a non-zero binary64
number: it does unless it is at most `2 ^ (-1075)`, half the least positive
binary64 number (`mant <<< 1075` is `mant * 2 ^ 1075`). -/
def decimalNonzero (mant : Nat) (exp10 : Int) : Bool :=
  if 0 ≤ exp10 then decide (0 < mant)
  else decide (10 ^ (-exp10).toNat < mant <<< 1075)

/-- The exponent part of a decimal literal: nothing, or `e`/`E`, an optional
sign and at least one digit, up to the end of the text. -/
def parseExponent : List Char → Option Int
  | [] => some 0
  | c :: cs =>
    if c = 'e' ∨ c = 'E' then
      let neg : Bool := match cs with
        | s :: _ => s = '-'
        | [] => false
      let cs1 : List Char := match cs with
        | s :: rest => if s = '-' ∨ s = '+' then rest else cs
        | [] => cs
      match spanDigits cs1 with
      | (d :: ds, []) =>
        if neg then some (-(digitsValue (d :: ds) : Int)) else some (digitsValue (d :: ds) : Int)
      | _ => none
    else none

/-- Is an unsigned decimal literal (`StrUnsignedDecimalLiteral`) positive as a
binary64 number; `none` when the text is not such a literal. -/
def unsignedDecimalPositive (cs : List Char) : Option Bool :=
  if cs = "Infinity".data then some true
  else
    let ip := (spanDigits cs).1
    let r1 := (spanDigits cs).2
    let dot : Bool := match r1 with
      | c :: _ => c = '.'
      | [] => false
    let fp := if dot then (spanDigits (r1.drop 1)).1 else []
    let r2 := if dot then (spanDigits (r1.drop 1)).2 else r1
    if ip = [] ∧ fp = [] then none
    else
      match parseExponent r2 with
      | none => none
      | some e => some (decimalNonzero (digitsValue (ip ++ fp)) (e - (fp.length : Int)))

/-- Is a literal with prefix `0x`, `0o` or `0b` positive: all characters after
the prefix are digits of the radix, there is at least one, and one is not
zero; `none` when the text is not such a literal. -/
def prefixedPositive (cs : List Char) : Option Bool :=
  match cs with
  | z :: x :: rest =>
    if z = '0' then
      let radix : Nat :=
        if x = 'x' ∨ x = 'X' then 16
        else if x = 'o' ∨ x = 'O' then 8
        else if x = 'b' ∨ x = 'B' then 2
        else 0
      if radix = 0 then none
      else if rest ≠ [] ∧ (takeDigits radix rest).length = rest.length then
        some (decide (0 < radixValue radix (takeDigits radix rest)))
      else none
    else none
  | _ => none

/-- The comparison `val > 0` for a string `val`: the string is converted to a
number (`StringToNumber`) and compared with zero; the comparison is false for
`NaN`.  White space around the literal is ignored, the empty text is `0`. -/
def gtZero (val : String) : Bool :=
  let cs := trimBoth val.data
  match prefixedPositive cs with
  | some b => b
  | none =>
    match cs with
    | [] => false
    | c :: rest =>
      if c = '-' then false
      else if c = '+' then (unsignedDecimalPositive rest).getD false
      else (unsignedDecimalPositive cs).getD false

/-- The function `setGoal`, called with the text of the goal input.  The
result is `none` when `parseInt` gives `NaN`, which the integer field
`dailyGoal` of the embedding cannot hold. -/
def setGoal (amount : String) (a : App) : Option App :=
  match parseInt amount with
  | none => none
  | some g =>
    some { updateUI (saveData { a with state := { a.state with dailyGoal := g } }) with
      goalInput := amount }

/-- The click handler of `#save-goal-btn`. -/
def saveGoalClick (a : App) : Option App :=
  if a.goalInput ≠ "" ∧ gtZero a.goalInput = true then
    match setGoal a.goalInput a with
    | some a1 => some { a1 with settingsHidden := true }
    | none => none
  else some a

/-- The function `init`, without the ring set-up, the date line and the
registration of the event handlers. -/
def init (today : String) (a : App) : Option App :=
  match loadData a with
  | some a1 => some (updateUI (checkDateReset today a1))
  | none => none

/-! ## Sequences of operations -/

/-- The operations of one day that change the intake: `addWater`, `undoLast`,
and `resetDay` answered yes. -/
inductive Op where
  | add (amount : Int)
  | undo
  | reset

/-- Run one operation on the date `today`. -/
def Op.run (today : String) (op : Op) (a : App) : App :=
  match op with
  | Op.add amount => addWater today amount a
  | Op.undo => undoLast a
  | Op.reset => resetDay true a

/-- Run a sequence of operations, all on the date `today`. -/
def runOps (today : String) (ops : List Op) (a : App) : App :=
  ops.foldl (fun acc op => op.run today acc) a

/-- Apply `addWater` once for each amount, in order; each call reads the clock
itself, so each amount comes with its date. -/
def addAll (calls : List (String × Int)) (a : App) : App :=
  calls.foldl (fun acc c => addWater c.1 c.2 acc) a

/-! ## The percentage as the specification words it -/

/-- The percentage as the specification states it:
`clamp(round(currentIntake / dailyGoal * 100), 0, 100)` with the quotient an
exact rational and `round` rounding halves up. -/
def specPercentage (c d : Int) : Int :=
  max 0 (min 100 ⌊((c : ℚ) / (d : ℚ)) * 100 + 1 / 2⌋)

/-- The same percentage with integer arithmetic only, for positive `d`:
`floor ((200 c + d) / (2 d))`. -/
def specPercentageInt (c d : Int) : Int :=
  max 0 (min 100 ((200 * c + d) / (2 * d)))

/-! ## Concrete pages used in the examples -/

/-- A page before the first `updateUI`. -/
def blankView : View :=
  { currentIntake := 0, goalDisplay := 0, remaining := 0, streak := 0,
    percentage := Percent.nan, message := "" }

/-- A fresh installation: default state, empty storage. -/
def freshApp : App :=
  { state := defaultState, storage := none, view := blankView, goalInput := "",
    settingsHidden := true, saves := 0, confetti := 0 }

/-- A page left open since the previous day with 500 ml logged. -/
def staleApp : App :=
  { freshApp with
    state := { defaultState with currentIntake := 500, lastLogDate := some "Tue Nov 03 2026" } }

/-- A page on which the goal of 2500 ml has been reached. -/
def reachedApp : App :=
  { freshApp with
    state :=
      { currentIntake := 2500, dailyGoal := 2500, streak := 1,
        lastLogDate := some "Wed Nov 04 2026", history := [] } }

/-- A page with `2 ^ 53` ml logged. -/
def bigApp : App :=
  { freshApp with state := { defaultState with currentIntake := 9007199254740992 } }

/-- A page with `2 ^ 53 - 1` ml logged and a goal of `2 ^ 53` ml. -/
def edgeApp : App :=
  { freshApp with
    state :=
      { currentIntake := 9007199254740991, dailyGoal := 9007199254740992, streak := 0,
        lastLogDate := none, history := [] } }

/-- A page with `10 ^ 20` ml logged. -/
def hugeApp : App :=
  { freshApp with state := { defaultState with currentIntake := 100000000000000000000 } }

/-- A fresh page whose storage holds the record of `staleApp`. -/
def staleStored : App := { freshApp with storage := (saveData staleApp).storage }

/-- A page whose goal input holds the text `0.5`. -/
def halfGoalApp : App := { freshApp with goalInput := "0.5" }

/-! ## Measures used in the proofs about the JSON codec -/

mutual
/-- Number of nested parser calls a value needs. -/
def Json.size : Json → Nat
  | .null => 1
  | .bool _ => 1
  | .num _ => 1
  | .str _ => 1
  | .arr xs => 1 + sizeElems xs
  | .obj kvs => 1 + sizeMembers kvs
/-- Number of nested parser calls the elements of an array need. -/
def sizeElems : List Json → Nat
  | [] => 0
  | v :: vs => 1 + v.size + sizeElems vs
/-- Number of nested parser calls the members of an object need. -/
def sizeMembers : List (String × Json) → Nat
  | [] => 0
  | (_, v) :: kvs => 1 + v.size + sizeMembers kvs
end

/-- Can a number end in front of this text: the text is empty or starts with
a character that is neither a digit nor `.`, `e`, `E`. -/
def numberEnd : List Char → Bool
  | [] => true
  | c :: _ => !isDigit c && !(c = '.' || c = 'e' || c = 'E')

/-! ## The percentage -/

/-- The halving count is the number of binary digits. -/
theorem bitsAux_bounds (fuel : Nat) :
    ∀ n : Nat, n ≤ fuel → 0 < n →
      2 ^ (bitsAux fuel n - 1) ≤ n ∧ n < 2 ^ bitsAux fuel n := by
  induction fuel with
  | zero =>
    intro n h0 hn
    omega
  | succ f ih =>
    intro n hle hn
    have hne : n ≠ 0 := Nat.pos_iff_ne_zero.mp hn
    simp only [bitsAux, hne, if_false, Nat.add_sub_cancel]
    by_cases h1 : n / 2 = 0
    · have hn1 : n = 1 := by omega
      subst hn1
      cases f <;> simp [bitsAux]
    · have hpos : 0 < n / 2 := Nat.pos_of_ne_zero h1
      obtain ⟨hlo, hhi⟩ := ih (n / 2) (by omega) hpos
      have hb : 0 < bitsAux f (n / 2) := by
        rcases Nat.eq_zero_or_pos (bitsAux f (n / 2)) with h | h
        · rw [h] at hhi
          simp at hhi
          omega
        · exact h
      constructor
      · have : 2 ^ bitsAux f (n / 2) = 2 ^ (bitsAux f (n / 2) - 1) * 2 := by
          rw [← pow_succ]
          congr 1
          omega
        rw [this]
        omega
      · rw [pow_succ]
        omega

/-- Bounds of `bitLength`. -/
theorem bitLength_bounds (n : Nat) (hn : 0 < n) :
    2 ^ (bitLength n - 1) ≤ n ∧ n < 2 ^ bitLength n :=
  bitsAux_bounds n n (le_refl n) hn

theorem bitLength_pos (n : Nat) (hn : 0 < n) : 0 < bitLength n := by
  rcases Nat.eq_zero_or_pos (bitLength n) with h | h
  · have := (bitLength_bounds n hn).2
    rw [h] at this
    simp at this
    omega
  · exact h

/-- The value of a magnitude as a rational number. -/
theorem Mag.num_div_den (x : Mag) :
    (x.num : ℚ) / (x.den : ℚ) = (x.mant : ℚ) * (2 : ℚ) ^ x.exp := by
  unfold Mag.num Mag.den
  by_cases h : 0 ≤ x.exp
  · simp only [h, if_true]
    obtain ⟨k, hk⟩ := Int.eq_ofNat_of_zero_le h
    rw [hk]
    simp
  · simp only [h, if_false]
    have h1 : 0 ≤ -x.exp := by omega
    obtain ⟨k, hk⟩ := Int.eq_ofNat_of_zero_le h1
    have hx : x.exp = -(k : Int) := by omega
    rw [hk, hx]
    simp [zpow_neg, div_eq_mul_inv]

/-- The scaled fraction as a rational number. -/
theorem scale_ratio (N D : Nat) (e : Int) :
    (scaleNum N e : ℚ) / (scaleDen D e : ℚ) = ((N : ℚ) / (D : ℚ)) / (2 : ℚ) ^ e := by
  unfold scaleNum scaleDen
  by_cases h : 0 ≤ e
  · simp only [h, if_true]
    obtain ⟨k, hk⟩ := Int.eq_ofNat_of_zero_le h
    rw [hk]
    simp [div_div]
  · simp only [h, if_false]
    have h1 : 0 ≤ -e := by omega
    obtain ⟨k, hk⟩ := Int.eq_ofNat_of_zero_le h1
    have hx : e = -(k : Int) := by omega
    rw [hk, hx]
    simp [zpow_neg]
    ring

theorem scaleDen_pos (D : Nat) (e : Int) (hD : 0 < D) : 0 < scaleDen D e := by
  unfold scaleDen
  split_ifs
  · positivity
  · exact hD

/-- Rounding to the nearest integer is off by at most one half. -/
theorem roundHalfEven_error (n d : Nat) (hd : 0 < d) :
    |(roundHalfEven n d : ℚ) - (n : ℚ) / (d : ℚ)| ≤ 1 / 2 := by
  have hdq : (0 : ℚ) < d := by exact_mod_cast hd
  have hdiv : (n : ℚ) / d = (n / d : Nat) + ((n % d : Nat) : ℚ) / d := by
    have h := Nat.div_add_mod n d
    have h2 : (n : ℚ) = (d : ℚ) * ((n / d : Nat) : ℚ) + ((n % d : Nat) : ℚ) := by
      exact_mod_cast h.symm
    rw [h2]
    field_simp
    ring
  have hr : (n % d : Nat) < d := Nat.mod_lt n hd
  have hrq : ((n % d : Nat) : ℚ) < d := by exact_mod_cast hr
  have hr0 : (0 : ℚ) ≤ ((n % d : Nat) : ℚ) := by positivity
  rw [hdiv, abs_le]
  unfold roundHalfEven
  split_ifs with h1 h2 h3
  · have h1q : (2 : ℚ) * ((n % d : Nat) : ℚ) < d := by exact_mod_cast h1
    constructor
    · rw [show ((n / d : Nat) : ℚ) - (((n / d : Nat) : ℚ) + ((n % d : Nat) : ℚ) / d) =
        -(((n % d : Nat) : ℚ) / d) by ring]
      rw [neg_le_neg_iff, div_le_iff₀ hdq]
      linarith
    · have : 0 ≤ ((n % d : Nat) : ℚ) / d := by positivity
      linarith
  · have h2q : (d : ℚ) < 2 * ((n % d : Nat) : ℚ) := by exact_mod_cast h2
    have hlt : ((n % d : Nat) : ℚ) / d < 1 := by
      rw [div_lt_iff₀ hdq]
      linarith
    have hgt : 1 / 2 ≤ ((n % d : Nat) : ℚ) / d := by
      rw [le_div_iff₀ hdq]
      linarith
    push_cast
    constructor <;> linarith
  · have heq : (2 : ℚ) * ((n % d : Nat) : ℚ) = d := by
      have : 2 * (n % d) = d := by omega
      exact_mod_cast this
    have hhalf : ((n % d : Nat) : ℚ) / d = 1 / 2 := by
      rw [div_eq_iff hdq.ne']
      linarith
    rw [hhalf]
    constructor <;> linarith
  · have heq : (2 : ℚ) * ((n % d : Nat) : ℚ) = d := by
      have : 2 * (n % d) = d := by omega
      exact_mod_cast this
    have hhalf : ((n % d : Nat) : ℚ) / d = 1 / 2 := by
      rw [div_eq_iff hdq.ne']
      linarith
    rw [hhalf]
    push_cast
    constructor <;> linarith

/-- With the exponent of `binaryExponent`, the scaled fraction is at least
`2 ^ 52`. -/
theorem binaryExponent_scaled (N D : Nat) (hN : 0 < N) (hD : 0 < D) :
    (2 : ℚ) ^ (52 : Nat) ≤ ((N : ℚ) / (D : ℚ)) / (2 : ℚ) ^ binaryExponent N D := by
  have hNq : (0 : ℚ) < N := by exact_mod_cast hN
  have hDq : (0 : ℚ) < D := by exact_mod_cast hD
  have h2 : (0 : ℚ) < 2 := by norm_num
  unfold binaryExponent
  simp only
  split_ifs with h
  · -- the digit counts give the bound
    obtain ⟨hNlo, _⟩ := bitLength_bounds N hN
    obtain ⟨_, hDhi⟩ := bitLength_bounds D hD
    have hbN := bitLength_pos N hN
    have hNq' : (2 : ℚ) ^ (bitLength N - 1) ≤ N := by exact_mod_cast hNlo
    have hDq' : (D : ℚ) ≤ (2 : ℚ) ^ (bitLength D) := by exact_mod_cast hDhi.le
    have hpow : (0 : ℚ) < (2 : ℚ) ^ ((bitLength N : Int) - (bitLength D : Int) - 53) :=
      zpow_pos h2 _
    rw [le_div_iff₀ hpow, le_div_iff₀ hDq]
    have hexp : (2 : ℚ) ^ (52 : Nat) * (2 : ℚ) ^ ((bitLength N : Int) - (bitLength D : Int) - 53)
        * (2 : ℚ) ^ (bitLength D) = (2 : ℚ) ^ (bitLength N - 1) := by
      rw [← zpow_natCast (2 : ℚ) 52, ← zpow_natCast (2 : ℚ) (bitLength D),
        ← zpow_natCast (2 : ℚ) (bitLength N - 1), ← zpow_add₀ h2.ne', ← zpow_add₀ h2.ne']
      congr 1
      have : ((bitLength N - 1 : Nat) : Int) = (bitLength N : Int) - 1 := by
        omega
      rw [this]
      push_cast
      ring
    calc (2 : ℚ) ^ (52 : Nat) * (2 : ℚ) ^ ((bitLength N : Int) - (bitLength D : Int) - 53) * D
        ≤ (2 : ℚ) ^ (52 : Nat) * (2 : ℚ) ^ ((bitLength N : Int) - (bitLength D : Int) - 53)
            * (2 : ℚ) ^ (bitLength D) := by
          apply mul_le_mul_of_nonneg_left hDq'
          positivity
      _ = (2 : ℚ) ^ (bitLength N - 1) := hexp
      _ ≤ N := hNq'
  · -- the quotient at `e0` is at least `2 ^ 53`
    have hge : 2 ^ 53 ≤ scaleNum N ((bitLength N : Int) - (bitLength D : Int) - 53) /
        scaleDen D ((bitLength N : Int) - (bitLength D : Int) - 53) := Nat.le_of_not_lt h
    have hdpos := scaleDen_pos D ((bitLength N : Int) - (bitLength D : Int) - 53) hD
    have hmul := (Nat.le_div_iff_mul_le hdpos).mp hge
    have hmulq : (2 : ℚ) ^ (53 : Nat) *
        (scaleDen D ((bitLength N : Int) - (bitLength D : Int) - 53) : ℚ) ≤
        (scaleNum N ((bitLength N : Int) - (bitLength D : Int) - 53) : ℚ) := by
      exact_mod_cast hmul
    have hdq : (0 : ℚ) < (scaleDen D ((bitLength N : Int) - (bitLength D : Int) - 53) : ℚ) := by
      exact_mod_cast hdpos
    have hratio := scale_ratio N D ((bitLength N : Int) - (bitLength D : Int) - 53)
    have h53 : (2 : ℚ) ^ (53 : Nat) ≤
        ((N : ℚ) / D) / (2 : ℚ) ^ ((bitLength N : Int) - (bitLength D : Int) - 53) := by
      rw [← hratio, le_div_iff₀ hdq]
      exact hmulq
    rw [zpow_add_one₀ h2.ne', ← div_div]
    rw [le_div_iff₀ h2]
    calc (2 : ℚ) ^ (52 : Nat) * 2 = (2 : ℚ) ^ (53 : Nat) := by norm_num
      _ ≤ _ := h53

/-- Relative error of rounding to binary64: at most `2 ^ (-53)`. -/
theorem roundBinary64_error (N D : Nat) (hD : 0 < D) :
    |((roundBinary64 N D).num : ℚ) / ((roundBinary64 N D).den : ℚ) - (N : ℚ) / (D : ℚ)| ≤
      ((N : ℚ) / (D : ℚ)) / (2 : ℚ) ^ (53 : Nat) := by
  rw [Mag.num_div_den]
  unfold roundBinary64
  by_cases hN : N = 0
  · subst hN
    simp
  · have hNpos : 0 < N := Nat.pos_of_ne_zero hN
    simp only [hN, if_false]
    have h2 : (0 : ℚ) < 2 := by norm_num
    have hpow : (0 : ℚ) < (2 : ℚ) ^ binaryExponent N D := zpow_pos h2 _
    have hscaled := binaryExponent_scaled N D hNpos hD
    have hm := roundHalfEven_error (scaleNum N (binaryExponent N D))
      (scaleDen D (binaryExponent N D)) (scaleDen_pos D _ hD)
    rw [scale_ratio] at hm
    have hfac : (roundHalfEven (scaleNum N (binaryExponent N D))
          (scaleDen D (binaryExponent N D)) : ℚ) * (2 : ℚ) ^ binaryExponent N D - (N : ℚ) / D =
        ((roundHalfEven (scaleNum N (binaryExponent N D))
          (scaleDen D (binaryExponent N D)) : ℚ) - ((N : ℚ) / D) / (2 : ℚ) ^ binaryExponent N D) *
          (2 : ℚ) ^ binaryExponent N D := by
      field_simp
      ring
    rw [hfac, abs_mul, abs_of_pos hpow]
    have hle : (2 : ℚ) ^ binaryExponent N D ≤ ((N : ℚ) / D) / (2 : ℚ) ^ (52 : Nat) := by
      rw [le_div_iff₀ (by positivity)]
      rw [le_div_iff₀ hpow] at hscaled
      linarith
    calc _ ≤ 1 / 2 * (2 : ℚ) ^ binaryExponent N D :=
          mul_le_mul_of_nonneg_right hm hpow.le
      _ ≤ 1 / 2 * (((N : ℚ) / D) / (2 : ℚ) ^ (52 : Nat)) := by
          apply mul_le_mul_of_nonneg_left hle
          norm_num
      _ = ((N : ℚ) / D) / (2 : ℚ) ^ (53 : Nat) := by
          ring

theorem Mag.den_pos (x : Mag) : 0 < x.den := by
  unfold Mag.den
  split_ifs
  · exact Nat.one_pos
  · positivity

/-- `Math.round` of a non-negative number is the floor of the number plus one
half. -/
theorem jsRound_false (x : Mag) :
    jsRound false x = ⌊(x.num : ℚ) / (x.den : ℚ) + 1 / 2⌋ := by
  have hden : (0 : ℚ) < (x.den : ℚ) := by exact_mod_cast x.den_pos
  have h := Rat.floor_intCast_div_natCast (2 * (x.num : Int) + (x.den : Int)) (2 * x.den)
  have heq : (((2 * (x.num : Int) + (x.den : Int) : Int) : ℚ)) / ((2 * x.den : Nat) : ℚ) =
      (x.num : ℚ) / (x.den : ℚ) + 1 / 2 := by
    push_cast
    field_simp
    ring
  rw [heq] at h
  rw [h]
  simp [jsRound]

/-- The percentage of the specification in integer arithmetic. -/
theorem specPercentage_eq_int (c d : Int) (hd : 0 < d) :
    specPercentage c d = specPercentageInt c d := by
  obtain ⟨k, hk⟩ := Int.eq_ofNat_of_zero_le hd.le
  subst hk
  have hkq : (0 : ℚ) < (k : ℚ) := by exact_mod_cast hd
  have h := Rat.floor_intCast_div_natCast (200 * c + (k : Int)) (2 * k)
  have heq : (((200 * c + (k : Int) : Int) : ℚ)) / ((2 * k : Nat) : ℚ) =
      (c : ℚ) / ((k : Int) : ℚ) * 100 + 1 / 2 := by
    push_cast
    field_simp
    ring
  rw [heq] at h
  unfold specPercentage specPercentageInt
  rw [h]
  simp

/-- The binary64 value of `(c / d) * 100` is within `300 / 2 ^ 53` of the exact
value, relatively. -/
theorem quotientTimes100_error (C D : Nat) (hD : 0 < D) :
    |((quotientTimes100 C D).num : ℚ) / ((quotientTimes100 C D).den : ℚ) -
        (C : ℚ) / (D : ℚ) * 100| ≤ (C : ℚ) / (D : ℚ) * (300 / (2 : ℚ) ^ (53 : Nat)) := by
  have hDq : (0 : ℚ) < D := by exact_mod_cast hD
  have hx : (0 : ℚ) ≤ (C : ℚ) / D := by positivity
  have e1 := roundBinary64_error C D hD
  have e2 := roundBinary64_error (100 * (roundBinary64 C D).num) (roundBinary64 C D).den
    (roundBinary64 C D).den_pos
  have hcast : ((100 * (roundBinary64 C D).num : Nat) : ℚ) / ((roundBinary64 C D).den : ℚ) =
      100 * (((roundBinary64 C D).num : ℚ) / ((roundBinary64 C D).den : ℚ)) := by
    push_cast
    ring
  rw [hcast] at e2
  unfold quotientTimes100
  generalize ((roundBinary64 (100 * (roundBinary64 C D).num) (roundBinary64 C D).den).num : ℚ) /
    ((roundBinary64 (100 * (roundBinary64 C D).num) (roundBinary64 C D).den).den : ℚ) = pv at e2 ⊢
  generalize ((roundBinary64 C D).num : ℚ) / ((roundBinary64 C D).den : ℚ) = qv at e1 e2 ⊢
  generalize (C : ℚ) / (D : ℚ) = x at hx e1 ⊢
  have hu : (1 : ℚ) / (2 : ℚ) ^ (53 : Nat) ≤ 1 := by norm_num
  rw [abs_le] at e1 e2 ⊢
  have hxu : x / (2 : ℚ) ^ (53 : Nat) ≤ x := by
    rw [div_le_iff₀ (by positivity)]
    nlinarith
  have hq2 : qv ≤ 2 * x := by linarith [e1.2]
  have hqu : 100 * qv / (2 : ℚ) ^ (53 : Nat) ≤ 200 * x / (2 : ℚ) ^ (53 : Nat) := by
    apply div_le_div_of_nonneg_right _ (by positivity)
    linarith
  have hsplit : x * (300 / (2 : ℚ) ^ (53 : Nat)) =
      200 * x / (2 : ℚ) ^ (53 : Nat) + 100 * (x / (2 : ℚ) ^ (53 : Nat)) := by ring
  rw [hsplit]
  constructor <;> linarith [e1.1, e1.2, e2.1, e2.2]

/-- Floors of numbers less than one apart are at most one apart. -/
theorem floor_close (a b : ℚ) (h : |a - b| < 1) : |⌊a⌋ - ⌊b⌋| ≤ 1 := by
  rw [abs_lt] at h
  rw [abs_le]
  have ha := Int.floor_le a
  have hb := Int.floor_le b
  have ha1 := Int.lt_floor_add_one a
  have hb1 := Int.lt_floor_add_one b
  constructor
  · have : (⌊b⌋ : ℚ) < (⌊a⌋ : ℚ) + 2 := by linarith
    have h2 : ⌊b⌋ < ⌊a⌋ + 2 := by exact_mod_cast this
    omega
  · have : (⌊a⌋ : ℚ) < (⌊b⌋ : ℚ) + 2 := by linarith
    have h2 : ⌊a⌋ < ⌊b⌋ + 2 := by exact_mod_cast this
    omega

/-- C7, counterexample: for `currentIntake = 57` and `dailyGoal = 200` the
exact value of `57 / 200 * 100` is 28.5, which rounds half up to 29, while the
binary64 value of `(57 / 200) * 100` is `28.499999999999996` and `updateUI`
shows 28. -/
theorem percentage_not_exact :
    percentage 57 200 = Percent.fin 28 ∧
    specPercentage 57 200 = 29 ∧
    percentage 57 200 ≠ Percent.fin (specPercentage 57 200) := by
  have h1 : percentage 57 200 = Percent.fin 28 := by decide
  have h2 : specPercentage 57 200 = 29 :=
    (specPercentage_eq_int 57 200 (by decide)).trans (by decide)
  refine ⟨h1, h2, ?_⟩
  rw [h1, h2]
  decide

/-- C7, amended: for non-negative `currentIntake = c` and positive
`dailyGoal = d`, the percentage computed by `updateUI` equals
`clamp(round(x), 0, 100)` where `x` is the binary64 value of `(c / d) * 100`
(quotient and product each rounded to the nearest binary64 number) and `round`
rounds halves up; it is an integer between 0 and 100 inclusive although the
code applies only the upper bound; and it differs by at most 1 from the
percentage computed over exact rationals. -/
theorem percentage_binary64 (c d : Int) (hc : 0 ≤ c) (hd : 0 < d) :
    percentage c d =
      Percent.fin (max 0 (min 100 (jsRound false (quotientTimes100 c.natAbs d.natAbs)))) ∧
    ∃ n : Int, percentage c d = Percent.fin n ∧ 0 ≤ n ∧ n ≤ 100 ∧
      |n - specPercentage c d| ≤ 1 := by
  obtain ⟨C, hC⟩ := Int.eq_ofNat_of_zero_le hc
  obtain ⟨D, hDe⟩ := Int.eq_ofNat_of_zero_le hd.le
  subst hC hDe
  have hD : 0 < D := by exact_mod_cast hd
  have hDq : (0 : ℚ) < (D : ℚ) := by exact_mod_cast hD
  have hx : (0 : ℚ) ≤ (C : ℚ) / D := by positivity
  have hperc : percentage (C : Int) (D : Int) =
      Percent.fin (min 100 (jsRound false (quotientTimes100 C D))) := by
    have hne : ((D : Int) = 0) = False := by
      simp only [eq_iff_iff, iff_false]
      omega
    have hcn : ((C : Int) < 0) = False := by
      simp only [eq_iff_iff, iff_false]
      omega
    have hdn : ((D : Int) < 0) = False := by
      simp only [eq_iff_iff, iff_false]
      omega
    simp [percentage, hne, hcn, hdn]
  have herr := quotientTimes100_error C D hD
  have hround := jsRound_false (quotientTimes100 C D)
  have hpv : (0 : ℚ) ≤ ((quotientTimes100 C D).num : ℚ) / ((quotientTimes100 C D).den : ℚ) := by
    positivity
  have hr0 : 0 ≤ jsRound false (quotientTimes100 C D) := by
    rw [hround]
    apply Int.floor_nonneg.mpr
    linarith
  have hs0 : (0 : Int) ≤ ⌊(C : ℚ) / (D : ℚ) * 100 + 1 / 2⌋ := by
    apply Int.floor_nonneg.mpr
    nlinarith
  have hspec : specPercentage (C : Int) (D : Int) =
      min 100 ⌊(C : ℚ) / (D : ℚ) * 100 + 1 / 2⌋ := by
    unfold specPercentage
    simp only [Int.cast_natCast]
    omega
  simp only [Int.natAbs_ofNat]
  have hclamp : max 0 (min 100 (jsRound false (quotientTimes100 C D))) =
      min 100 (jsRound false (quotientTimes100 C D)) := by omega
  refine ⟨by rw [hperc, hclamp], min 100 (jsRound false (quotientTimes100 C D)), hperc,
    by omega, by omega, ?_⟩
  rw [hspec, hround]
  rw [abs_le] at herr
  by_cases hbig : (C : ℚ) / D ≤ 2
  · -- the two arguments of `floor` are less than one apart
    have hsmall : (C : ℚ) / (D : ℚ) * (300 / (2 : ℚ) ^ (53 : Nat)) < 1 := by
      have : (300 : ℚ) / (2 : ℚ) ^ (53 : Nat) < 1 / 2 := by norm_num
      nlinarith
    have hclose := floor_close
      (((quotientTimes100 C D).num : ℚ) / ((quotientTimes100 C D).den : ℚ) + 1 / 2)
      ((C : ℚ) / (D : ℚ) * 100 + 1 / 2)
      (by
        rw [abs_lt]
        constructor <;> linarith [herr.1, herr.2])
    rw [abs_le] at hclose ⊢
    omega
  · -- both percentages are clamped to 100
    have hx2 : 2 < (C : ℚ) / D := lt_of_not_le hbig
    have hu : (300 : ℚ) / (2 : ℚ) ^ (53 : Nat) ≤ 1 := by norm_num
    have hp100 : (100 : ℚ) ≤
        ((quotientTimes100 C D).num : ℚ) / ((quotientTimes100 C D).den : ℚ) + 1 / 2 := by
      nlinarith [herr.1]
    have hf1 : (100 : Int) ≤
        ⌊((quotientTimes100 C D).num : ℚ) / ((quotientTimes100 C D).den : ℚ) + 1 / 2⌋ := by
      apply Int.le_floor.mpr
      exact_mod_cast hp100
    have hf2 : (100 : Int) ≤ ⌊(C : ℚ) / (D : ℚ) * 100 + 1 / 2⌋ := by
      apply Int.le_floor.mpr
      push_cast
      linarith
    rw [abs_le]
    omega

/-- Witness of C7 amended: the fresh-install scenario, 2500 ml of 2500 ml. -/
theorem percentage_binary64_witness :
    percentage 2500 2500 =
      Percent.fin (max 0 (min 100 (jsRound false
        (quotientTimes100 (2500 : Int).natAbs (2500 : Int).natAbs)))) ∧
    ∃ n : Int, percentage 2500 2500 = Percent.fin n ∧ 0 ≤ n ∧ n ≤ 100 ∧
      |n - specPercentage 2500 2500| ≤ 1 :=
  percentage_binary64 2500 2500 (by decide) (by decide)

/-! ## Integer arithmetic in binary64 -/

theorem roundHalfEven_one (x : Nat) : roundHalfEven x 1 = x := by
  simp [roundHalfEven, Nat.mod_one]

/-- Every natural number up to `2 ^ 53` is a binary64 number. -/
theorem roundNat_exact (n : Nat) (h : n ≤ 2 ^ 53) :
    (roundBinary64 n 1).num / (roundBinary64 n 1).den = n := by
  by_cases hn : n = 0
  · subst hn
    simp [roundBinary64, Mag.num, Mag.den]
  · have hpos : 0 < n := Nat.pos_of_ne_zero hn
    have hscaled := binaryExponent_scaled n 1 hpos Nat.one_pos
    simp only [Nat.cast_one, div_one] at hscaled
    have hnq : (n : ℚ) ≤ (2 : ℚ) ^ (53 : Nat) := by exact_mod_cast h
    have hpow : (0 : ℚ) < (2 : ℚ) ^ binaryExponent n 1 := zpow_pos (by norm_num) _
    rw [le_div_iff₀ hpow] at hscaled
    have he : binaryExponent n 1 ≤ 1 := by
      by_contra hcon
      have h2 : (2 : Int) ≤ binaryExponent n 1 := by omega
      have h2e : (2 : ℚ) ^ (2 : Int) ≤ (2 : ℚ) ^ binaryExponent n 1 :=
        zpow_le_zpow_right₀ (by norm_num) h2
      have h4 : (2 : ℚ) ^ (2 : Int) = 4 := by norm_num
      rw [h4] at h2e
      have : (2 : ℚ) ^ (52 : Nat) * 4 ≤ (2 : ℚ) ^ (53 : Nat) := by
        calc (2 : ℚ) ^ (52 : Nat) * 4 ≤ (2 : ℚ) ^ (52 : Nat) * (2 : ℚ) ^ binaryExponent n 1 := by
              apply mul_le_mul_of_nonneg_left h2e
              positivity
          _ ≤ n := hscaled
          _ ≤ (2 : ℚ) ^ (53 : Nat) := hnq
      norm_num at this
    unfold roundBinary64
    simp only [hn, if_false]
    generalize binaryExponent n 1 = e at hscaled he hpow
    rcases lt_trichotomy e 0 with hneg | hzero | hposE
    · have hnot : ¬ (0 ≤ e) := by omega
      simp only [Mag.num, Mag.den, scaleNum, scaleDen, hnot, if_false, roundHalfEven_one]
      exact Nat.mul_div_cancel _ (by positivity)
    · subst hzero
      simp [Mag.num, Mag.den, scaleNum, scaleDen, roundHalfEven_one]
    · have he1 : e = 1 := by omega
      subst he1
      have h2n : (2 : ℚ) ^ (53 : Nat) ≤ n := by
        calc (2 : ℚ) ^ (53 : Nat) = (2 : ℚ) ^ (52 : Nat) * (2 : ℚ) ^ (1 : Int) := by norm_num
          _ ≤ n := hscaled
      have hn53 : 2 ^ 53 ≤ n := by exact_mod_cast h2n
      have hneq : n = 2 ^ 53 := le_antisymm h hn53
      subst hneq
      decide

/-- Every integer of magnitude up to `2 ^ 53` is a binary64 number: additions
and subtractions with such a result are exact. -/
theorem roundInt_exact (z : Int) (hlo : -(2 ^ 53) ≤ z) (hhi : z ≤ 2 ^ 53) : roundInt z = z := by
  have hnat : z.natAbs ≤ 2 ^ 53 := by
    have h53 : ((2 ^ 53 : Nat) : Int) = 2 ^ 53 := by norm_num
    omega
  unfold roundInt
  rw [roundNat_exact z.natAbs hnat]
  split_ifs with hneg <;> omega

/-! ## Basic facts about the operations -/

@[simp] theorem saveData_state (a : App) : (saveData a).state = a.state := rfl

@[simp] theorem saveData_saves (a : App) : (saveData a).saves = a.saves + 1 := rfl

@[simp] theorem updateUI_state (a : App) : (updateUI a).state = a.state := rfl

@[simp] theorem updateUI_saves (a : App) : (updateUI a).saves = a.saves := rfl

@[simp] theorem animateMessage_state (t : String) (a : App) :
    (animateMessage t a).state = a.state := rfl

@[simp] theorem animateMessage_saves (t : String) (a : App) :
    (animateMessage t a).saves = a.saves := rfl

@[simp] theorem triggerConfetti_state (a : App) : (triggerConfetti a).state = a.state := rfl

/-- The state after `addWater`, field by field. -/
theorem addWater_state (today : String) (amount : Int) (a : App) :
    (addWater today amount a).state =
      { currentIntake := roundInt (a.state.currentIntake + amount),
        dailyGoal := a.state.dailyGoal,
        streak :=
          if a.state.dailyGoal ≤ roundInt (a.state.currentIntake + amount) ∧
              roundInt (roundInt (a.state.currentIntake + amount) - amount) < a.state.dailyGoal
          then roundInt (a.state.streak + 1) else a.state.streak,
        lastLogDate := some today,
        history := a.state.history } := by
  unfold addWater
  simp only [animateMessage_state, updateUI_state, saveData_state]
  split <;> simp_all

/-- The state after `addWater` when the new intake is at most `2 ^ 53`: the sum
and the difference of the test are exact. -/
theorem addWater_state_exact (today : String) (amount : Int) (a : App)
    (hc : 0 ≤ a.state.currentIntake) (hm : 0 < amount)
    (hsafe : a.state.currentIntake + amount ≤ 2 ^ 53) :
    (addWater today amount a).state =
      { currentIntake := a.state.currentIntake + amount,
        dailyGoal := a.state.dailyGoal,
        streak :=
          if a.state.dailyGoal ≤ a.state.currentIntake + amount ∧
              a.state.currentIntake < a.state.dailyGoal
          then roundInt (a.state.streak + 1) else a.state.streak,
        lastLogDate := some today,
        history := a.state.history } := by
  have h53 : (0 : Int) < 2 ^ 53 := by norm_num
  have h1 : roundInt (a.state.currentIntake + amount) = a.state.currentIntake + amount :=
    roundInt_exact _ (by omega) hsafe
  have h2 : roundInt (a.state.currentIntake + amount - amount) = a.state.currentIntake := by
    rw [add_sub_cancel_right]
    exact roundInt_exact _ (by omega) (by omega)
  rw [addWater_state, h1, h2]

/-- The state after `undoLast`, field by field. -/
theorem undoLast_state (a : App) :
    (undoLast a).state =
      { a.state with
        currentIntake :=
          if 0 < a.state.currentIntake then max 0 (roundInt (a.state.currentIntake - 250))
          else a.state.currentIntake } := by
  unfold undoLast
  split <;> simp_all

/-- The state after a confirmed `resetDay`. -/
theorem resetDay_state (a : App) :
    (resetDay true a).state = { a.state with currentIntake := 0 } := by
  simp [resetDay]

/-- A sum of positive amounts is not negative. -/
theorem sum_amounts_nonneg (calls : List (String × Int)) (hpos : ∀ c ∈ calls, 0 < c.2) :
    0 ≤ (calls.map Prod.snd).sum := by
  induction calls with
  | nil => simp
  | cons c cs ih =>
    have hc : 0 < c.2 := hpos c (List.mem_cons_self _ _)
    have := ih (fun x hx => hpos x (List.mem_cons_of_mem _ hx))
    simp only [List.map_cons, List.sum_cons]
    omega

/-! ## The operations one by one -/

/-- C1, counterexample: with `2 ^ 53` ml logged, `addWater(1)` leaves the intake
at `2 ^ 53`, because `2 ^ 53 + 1` is not a binary64 number; the intake is not
the old intake plus the amount. -/
theorem addWater_beyond_exact_range :
    0 ≤ bigApp.state.currentIntake ∧
    (addWater "Wed Nov 04 2026" 1 bigApp).state.currentIntake = 9007199254740992 ∧
    (addWater "Wed Nov 04 2026" 1 bigApp).state.currentIntake ≠
      bigApp.state.currentIntake + 1 := by
  decide

/-- C1, amended: for a state with non-negative `currentIntake` and a positive
amount whose sum is at most `2 ^ 53`, `addWater(amount)` on the date `today`
gives `currentIntake` equal to the old value plus the amount, hence not smaller
than before, sets `lastLogDate` to `today`, and leaves `dailyGoal` and `history`
unchanged. -/
theorem addWater_intake (today : String) (amount : Int) (a : App)
    (hc : 0 ≤ a.state.currentIntake) (hm : 0 < amount)
    (hsafe : a.state.currentIntake + amount ≤ 2 ^ 53) :
    (addWater today amount a).state.currentIntake = a.state.currentIntake + amount ∧
    0 ≤ (addWater today amount a).state.currentIntake ∧
    a.state.currentIntake ≤ (addWater today amount a).state.currentIntake ∧
    (addWater today amount a).state.lastLogDate = some today ∧
    (addWater today amount a).state.dailyGoal = a.state.dailyGoal ∧
    (addWater today amount a).state.history = a.state.history := by
  rw [addWater_state_exact today amount a hc hm hsafe]
  refine ⟨rfl, ?_, ?_, rfl, rfl, rfl⟩ <;> simp only <;> omega

/-- Witness of C1 amended: 250 ml added to a fresh installation. -/
theorem addWater_intake_witness :
    (addWater "Wed Nov 04 2026" 250 freshApp).state.currentIntake =
        freshApp.state.currentIntake + 250 ∧
    0 ≤ (addWater "Wed Nov 04 2026" 250 freshApp).state.currentIntake ∧
    freshApp.state.currentIntake ≤
        (addWater "Wed Nov 04 2026" 250 freshApp).state.currentIntake ∧
    (addWater "Wed Nov 04 2026" 250 freshApp).state.lastLogDate = some "Wed Nov 04 2026" ∧
    (addWater "Wed Nov 04 2026" 250 freshApp).state.dailyGoal = freshApp.state.dailyGoal ∧
    (addWater "Wed Nov 04 2026" 250 freshApp).state.history = freshApp.state.history :=
  addWater_intake "Wed Nov 04 2026" 250 freshApp (by decide) (by decide) (by decide)

/-- C3, counterexample: with `10 ^ 20` ml logged, `undoLast()` leaves the intake
at `10 ^ 20`, because the binary64 numbers near `10 ^ 20` are 16384 apart; the
intake is not `max(0, old - 250)`. -/
theorem undoLast_beyond_exact_range :
    0 ≤ hugeApp.state.currentIntake ∧
    (undoLast hugeApp).state.currentIntake = 100000000000000000000 ∧
    (undoLast hugeApp).state.currentIntake ≠ max 0 (hugeApp.state.currentIntake - 250) := by
  decide

/-- C3, amended: for a state with non-negative `currentIntake`, `undoLast()`
gives `currentIntake = max(0, old - 250)` when the old value is at most
`2 ^ 53`; in every case the result is not negative; when the old value is 0 the
application is left as it was (state, storage and the count of writes to
storage included); `streak`, `dailyGoal` and `lastLogDate` never change. -/
theorem undoLast_clamped (a : App) (hc : 0 ≤ a.state.currentIntake) :
    (a.state.currentIntake ≤ 2 ^ 53 →
      (undoLast a).state.currentIntake = max 0 (a.state.currentIntake - 250)) ∧
    0 ≤ (undoLast a).state.currentIntake ∧
    (a.state.currentIntake = 0 → undoLast a = a) ∧
    (undoLast a).state.streak = a.state.streak ∧
    (undoLast a).state.dailyGoal = a.state.dailyGoal ∧
    (undoLast a).state.lastLogDate = a.state.lastLogDate := by
  rw [undoLast_state]
  refine ⟨?_, ?_, ?_, rfl, rfl, rfl⟩
  · intro hsafe
    have h53 : (0 : Int) < 2 ^ 53 := by norm_num
    have h1 : roundInt (a.state.currentIntake - 250) = a.state.currentIntake - 250 :=
      roundInt_exact _ (by omega) (by omega)
    simp only [h1]
    split_ifs <;> omega
  · simp only
    split_ifs <;> omega
  · intro h0
    simp [undoLast, h0]

/-- Witness of C3 amended: the scenario `currentIntake = 100`, and a fresh
installation with `currentIntake = 0`. -/
theorem undoLast_clamped_witness :
    (undoLast { freshApp with state := { defaultState with currentIntake := 100 } }).state.currentIntake
      = max 0 (100 - 250) ∧
    undoLast freshApp = freshApp :=
  ⟨(undoLast_clamped { freshApp with state := { defaultState with currentIntake := 100 } }
      (by decide)).1 (by decide),
   (undoLast_clamped freshApp (by decide)).2.2.1 rfl⟩

/-- C4: `resetDay()` answered yes gives `currentIntake = 0` and keeps
`streak`, `dailyGoal` and `lastLogDate`; answered no it leaves the application
as it was (state, storage and the count of writes to storage included). -/
theorem resetDay_frame (a : App) :
    (resetDay true a).state.currentIntake = 0 ∧
    (resetDay true a).state.streak = a.state.streak ∧
    (resetDay true a).state.dailyGoal = a.state.dailyGoal ∧
    (resetDay true a).state.lastLogDate = a.state.lastLogDate ∧
    (resetDay true a).saves = a.saves + 1 ∧
    resetDay false a = a := by
  rw [resetDay_state]
  refine ⟨rfl, rfl, rfl, rfl, ?_, ?_⟩ <;> simp [resetDay]

/-- C5: when `lastLogDate` differs from `today` (an absent `lastLogDate`
included), `checkDateReset` gives `currentIntake = 0` and `lastLogDate = today`,
keeps `streak` and `dailyGoal`, and persists; when `lastLogDate` is `today` it
leaves the application as it was (state, storage and the count of writes to
storage included). -/
theorem checkDateReset_rollover (today : String) (a : App) :
    (a.state.lastLogDate ≠ some today →
      (checkDateReset today a).state.currentIntake = 0 ∧
      (checkDateReset today a).state.lastLogDate = some today ∧
      (checkDateReset today a).state.streak = a.state.streak ∧
      (checkDateReset today a).state.dailyGoal = a.state.dailyGoal ∧
      (checkDateReset today a).saves = a.saves + 1) ∧
    (a.state.lastLogDate = some today → checkDateReset today a = a) := by
  constructor
  · intro h
    simp [checkDateReset, h]
  · intro h
    simp [checkDateReset, h]

/-- Witness of C5: a state last logged on the previous day, and the same
state once rolled over. -/
theorem checkDateReset_rollover_witness :
    (checkDateReset "Wed Nov 04 2026" staleApp).state.currentIntake = 0 ∧
    checkDateReset "Wed Nov 04 2026" (checkDateReset "Wed Nov 04 2026" staleApp) =
      checkDateReset "Wed Nov 04 2026" staleApp :=
  ⟨((checkDateReset_rollover "Wed Nov 04 2026" staleApp).1 (by decide)).1,
   (checkDateReset_rollover "Wed Nov 04 2026" (checkDateReset "Wed Nov 04 2026" staleApp)).2
     (((checkDateReset_rollover "Wed Nov 04 2026" staleApp).1 (by decide)).2.1)⟩

/-! ## Rollover and `addWater` -/

/-- C9, counterexample: on a page left open since the previous day with 500 ml
logged, `addWater(250)` gives 750 ml, not 250 ml. -/
theorem addWater_no_rollover :
    staleApp.state.lastLogDate = some "Tue Nov 03 2026" ∧
    staleApp.state.lastLogDate ≠ some "Wed Nov 04 2026" ∧
    (addWater "Wed Nov 04 2026" 250 staleApp).state.currentIntake = 750 ∧
    (addWater "Wed Nov 04 2026" 250 staleApp).state.currentIntake ≠ 250 := by
  decide

/-- C9, amended: the rollover is applied by `checkDateReset`, which `init` runs
once at start-up after `loadData`, and `addWater` applies none.  Let `loadData`
give a state whose `lastLogDate` differs from `today`, with non-negative intake,
and let the amount be positive with the sum of intake and amount at most
`2 ^ 53`.  Then `init` succeeds with `currentIntake = 0`, `lastLogDate = today`
and the streak of the loaded state, and `addWater(amount)` after `init` gives
`currentIntake = amount`; while `addWater(amount)` on the loaded state itself
gives the old `currentIntake` plus the amount and sets `lastLogDate` to `today`,
so that a later `checkDateReset` on that date changes nothing. -/
theorem rollover_only_at_startup (today : String) (amount : Int) (a a1 : App)
    (hload : loadData a = some a1) (hd : a1.state.lastLogDate ≠ some today)
    (hc : 0 ≤ a1.state.currentIntake) (hm : 0 < amount)
    (hsafe : a1.state.currentIntake + amount ≤ 2 ^ 53) :
    (∃ a2, init today a = some a2 ∧
      a2.state.currentIntake = 0 ∧
      a2.state.lastLogDate = some today ∧
      a2.state.streak = a1.state.streak ∧
      (addWater today amount a2).state.currentIntake = amount) ∧
    (addWater today amount a1).state.currentIntake = a1.state.currentIntake + amount ∧
    (addWater today amount a1).state.lastLogDate = some today ∧
    checkDateReset today (addWater today amount a1) = addWater today amount a1 := by
  have h1 : (addWater today amount a1).state.lastLogDate = some today := by
    rw [addWater_state]
  refine ⟨⟨updateUI (checkDateReset today a1), ?_, ?_, ?_, ?_, ?_⟩, ?_, h1, ?_⟩
  · simp [init, hload]
  · simp [checkDateReset, hd]
  · simp [checkDateReset, hd]
  · simp [checkDateReset, hd]
  · have h0 : (updateUI (checkDateReset today a1)).state.currentIntake = 0 := by
      simp [checkDateReset, hd]
    rw [addWater_state_exact today amount _ (by omega) hm (by omega)]
    simp only [h0]
    omega
  · rw [addWater_state_exact today amount a1 hc hm hsafe]
  · simp [checkDateReset, h1]

/-- Witness of C9 amended: a page opened on the day after 500 ml were logged
and stored. -/
theorem rollover_only_at_startup_witness :
    (∃ a2, init "Wed Nov 04 2026" staleStored = some a2 ∧
      a2.state.currentIntake = 0 ∧
      a2.state.lastLogDate = some "Wed Nov 04 2026" ∧
      a2.state.streak = staleApp.state.streak ∧
      (addWater "Wed Nov 04 2026" 250 a2).state.currentIntake = 250) ∧
    (addWater "Wed Nov 04 2026" 250 { staleStored with state := staleApp.state }).state.currentIntake
      = staleApp.state.currentIntake + 250 :=
  ⟨(rollover_only_at_startup "Wed Nov 04 2026" 250 staleStored
      { staleStored with state := staleApp.state } rfl (by decide) (by decide) (by decide)
      (by decide)).1,
   (rollover_only_at_startup "Wed Nov 04 2026" 250 staleStored
      { staleStored with state := staleApp.state } rfl (by decide) (by decide) (by decide)
      (by decide)).2.1⟩

/-! ## Streak accounting -/

/-- Along a run of `addWater` calls with positive amounts and a final intake of
at most `2 ^ 53`, the goal is kept, the intake grows by the sum of the amounts,
and the sum of the streak and the indicator "intake below goal" is kept. -/
theorem addAll_invariants (calls : List (String × Int)) :
    ∀ a : App, 0 ≤ a.state.currentIntake → (∀ c ∈ calls, 0 < c.2) →
      a.state.currentIntake + (calls.map Prod.snd).sum ≤ 2 ^ 53 →
      (a.state.currentIntake < a.state.dailyGoal →
        -(2 ^ 53) ≤ a.state.streak + 1 ∧ a.state.streak + 1 ≤ 2 ^ 53) →
      (addAll calls a).state.dailyGoal = a.state.dailyGoal ∧
      (addAll calls a).state.currentIntake =
        a.state.currentIntake + (calls.map Prod.snd).sum ∧
      (addAll calls a).state.streak +
          (if (addAll calls a).state.currentIntake < a.state.dailyGoal then 1 else 0) =
        a.state.streak + (if a.state.currentIntake < a.state.dailyGoal then 1 else 0) := by
  induction calls with
  | nil =>
    intro a _ _ _ _
    simp [addAll]
  | cons c cs ih =>
    intro a hc0 hpos hsafe hstreak
    have hc : 0 < c.2 := hpos c (List.mem_cons_self _ _)
    have hcs : ∀ x ∈ cs, 0 < x.2 := fun x hx => hpos x (List.mem_cons_of_mem _ hx)
    have hsum := sum_amounts_nonneg cs hcs
    simp only [List.map_cons, List.sum_cons] at hsafe ⊢
    have hstep : addAll (c :: cs) a = addAll cs (addWater c.1 c.2 a) := rfl
    have hs := addWater_state_exact c.1 c.2 a hc0 hc (by omega)
    have hg1 : (addWater c.1 c.2 a).state.dailyGoal = a.state.dailyGoal := by rw [hs]
    have hi1 : (addWater c.1 c.2 a).state.currentIntake = a.state.currentIntake + c.2 := by
      rw [hs]
    have hk1 : (addWater c.1 c.2 a).state.streak =
        (if a.state.dailyGoal ≤ a.state.currentIntake + c.2 ∧
            a.state.currentIntake < a.state.dailyGoal
         then a.state.streak + 1 else a.state.streak) := by
      rw [hs]
      simp only
      split_ifs with hx
      · exact roundInt_exact _ (hstreak hx.2).1 (hstreak hx.2).2
      · rfl
    obtain ⟨hg, hint, hpot⟩ := ih (addWater c.1 c.2 a) (by omega) hcs (by omega) (by
      intro hlt
      rw [hi1, hg1] at hlt
      have hbelow : a.state.currentIntake < a.state.dailyGoal := by omega
      rw [hk1]
      have hno : ¬ (a.state.dailyGoal ≤ a.state.currentIntake + c.2 ∧
          a.state.currentIntake < a.state.dailyGoal) := by
        intro hx
        omega
      simp only [hno, if_false]
      exact hstreak hbelow)
    rw [hstep]
    rw [hg1] at hg hpot
    rw [hi1] at hint hpot
    refine ⟨hg, by omega, ?_⟩
    rw [hpot, hk1]
    split_ifs <;> omega

/-- C2, counterexample: with `2 ^ 53 - 1` ml logged, a goal of `2 ^ 53` ml and
streak 0, two calls `addWater(1)` leave the streak at 2 and not at 1: the first
call reaches the goal, the second one leaves the intake at `2 ^ 53` because
`2 ^ 53 + 1` is not a binary64 number, while `2 ^ 53 - 1` is below the goal, so
the test of the crossing succeeds again although the intake was at the goal. -/
theorem addAll_streak_beyond_exact_range :
    0 < edgeApp.state.dailyGoal ∧
    0 ≤ edgeApp.state.currentIntake ∧
    edgeApp.state.currentIntake < edgeApp.state.dailyGoal ∧
    edgeApp.state.dailyGoal ≤
      (addAll [("Wed Nov 04 2026", 1), ("Wed Nov 04 2026", 1)] edgeApp).state.currentIntake ∧
    (addAll [("Wed Nov 04 2026", 1), ("Wed Nov 04 2026", 1)] edgeApp).state.streak = 2 ∧
    (addAll [("Wed Nov 04 2026", 1), ("Wed Nov 04 2026", 1)] edgeApp).state.streak ≠
      edgeApp.state.streak + 1 ∧
    (addWater "Wed Nov 04 2026" 1 edgeApp).state.dailyGoal ≤
      (addWater "Wed Nov 04 2026" 1 edgeApp).state.currentIntake ∧
    (addWater "Wed Nov 04 2026" 1 (addWater "Wed Nov 04 2026" 1 edgeApp)).state.streak ≠
      (addWater "Wed Nov 04 2026" 1 edgeApp).state.streak := by
  decide

/-- C2, amended: let the intake be non-negative, the amounts positive, the
intake plus the sum of the amounts at most `2 ^ 53`, and the streak non-negative
and below `2 ^ 53`.  When the amounts are applied one after another through
`addWater` and nothing else happens in between, the final intake is the initial
intake plus the sum of the amounts, and the final streak is the initial streak
plus 1 if the initial intake was below the goal and the final intake is at or
above it, and the initial streak otherwise; and a single `addWater` call with a
positive amount, made when the intake is at or above the goal and the new
intake is at most `2 ^ 53`, leaves the streak unchanged. -/
theorem addAll_streak (calls : List (String × Int)) (a : App)
    (hc : 0 ≤ a.state.currentIntake) (hpos : ∀ c ∈ calls, 0 < c.2)
    (hsafe : a.state.currentIntake + (calls.map Prod.snd).sum ≤ 2 ^ 53)
    (hs0 : 0 ≤ a.state.streak) (hs1 : a.state.streak < 2 ^ 53) :
    (addAll calls a).state.currentIntake =
        a.state.currentIntake + (calls.map Prod.snd).sum ∧
    (addAll calls a).state.streak =
        (if a.state.currentIntake < a.state.dailyGoal ∧
            a.state.dailyGoal ≤ a.state.currentIntake + (calls.map Prod.snd).sum
         then a.state.streak + 1 else a.state.streak) ∧
    (∀ (today : String) (amount : Int) (b : App), 0 < amount →
        0 ≤ b.state.currentIntake → b.state.currentIntake + amount ≤ 2 ^ 53 →
        b.state.dailyGoal ≤ b.state.currentIntake →
        (addWater today amount b).state.streak = b.state.streak) := by
  have h53 : (0 : Int) < 2 ^ 53 := by norm_num
  obtain ⟨_, hint, hpot⟩ := addAll_invariants calls a hc hpos hsafe (fun _ => by omega)
  have hsum := sum_amounts_nonneg calls hpos
  refine ⟨hint, ?_, ?_⟩
  · rw [hint] at hpot
    split_ifs at hpot ⊢ <;> omega
  · intro today amount b hm hb0 hbsafe hb
    rw [addWater_state_exact today amount b hb0 hm hbsafe]
    simp only
    split_ifs with hx
    · omega
    · rfl

/-- Witness of C2 amended: the scenario of four additions of 600 ml from 0 with
goal 2500 and a fifth one that crosses the goal, and one more addition once the
goal is reached. -/
theorem addAll_streak_witness :
    (addAll [("Wed Nov 04 2026", 600), ("Wed Nov 04 2026", 600), ("Wed Nov 04 2026", 600),
        ("Wed Nov 04 2026", 600), ("Wed Nov 04 2026", 600)] freshApp).state.currentIntake =
      freshApp.state.currentIntake + 3000 ∧
    (addAll [("Wed Nov 04 2026", 600), ("Wed Nov 04 2026", 600), ("Wed Nov 04 2026", 600),
        ("Wed Nov 04 2026", 600), ("Wed Nov 04 2026", 600)] freshApp).state.streak =
      freshApp.state.streak + 1 ∧
    (addWater "Wed Nov 04 2026" 250 reachedApp).state.streak = reachedApp.state.streak :=
  ⟨(addAll_streak [("Wed Nov 04 2026", 600), ("Wed Nov 04 2026", 600),
      ("Wed Nov 04 2026", 600), ("Wed Nov 04 2026", 600), ("Wed Nov 04 2026", 600)] freshApp
      (by decide) (by decide) (by decide) (by decide) (by decide)).1,
   (addAll_streak [("Wed Nov 04 2026", 600), ("Wed Nov 04 2026", 600),
      ("Wed Nov 04 2026", 600), ("Wed Nov 04 2026", 600), ("Wed Nov 04 2026", 600)] freshApp
      (by decide) (by decide) (by decide) (by decide) (by decide)).2.1,
   (addAll_streak [] freshApp (by decide) (by decide) (by decide) (by decide)
      (by decide)).2.2 "Wed Nov 04 2026" 250 reachedApp (by decide) (by decide) (by decide)
      (by decide)⟩

/-- C10: from a fresh installation (goal 2500, streak 0), `addWater(2500)`,
`undoLast()`, `addWater(250)` on one date crosses the goal twice and leaves the
streak at 2, above the initial streak plus 1. -/
theorem streak_two_crossings :
    0 < freshApp.state.dailyGoal ∧
    (runOps "Wed Nov 04 2026" [Op.add 2500, Op.undo, Op.add 250] freshApp).state.streak = 2 ∧
    ¬ ((runOps "Wed Nov 04 2026" [Op.add 2500, Op.undo, Op.add 250] freshApp).state.streak ≤
        freshApp.state.streak + 1) := by
  decide

/-! ## The goal input -/

/-- C8: the text `0.5` in the goal input passes the guard of the save-goal
handler (it is not empty and `"0.5" > 0` holds), `parseInt` turns it into 0,
and `setGoal` stores `dailyGoal = 0`. -/
theorem saveGoal_fraction_stores_zero :
    halfGoalApp.goalInput ≠ "" ∧
    gtZero halfGoalApp.goalInput = true ∧
    parseInt halfGoalApp.goalInput = some 0 ∧
    (saveGoalClick halfGoalApp).map (fun a => a.state.dailyGoal) = some 0 ∧
    ¬ ((saveGoalClick halfGoalApp).map (fun a => decide (0 < a.state.dailyGoal)) = some true) := by
  decide

/-! ## The JSON codec: strings -/

theorem hexVal_hexDigit (n : Nat) (h : n < 16) : hexVal (hexDigit n) = some n := by
  interval_cases n <;> rfl

theorem hexVal_zero : hexVal '0' = some 0 := rfl

/-- The `\u00xx` escape of a control character decodes to the character. -/
theorem hex4_control (c : Char) (h : c.toNat < 32) :
    hex4 '0' '0' (hexDigit (c.toNat / 16)) (hexDigit (c.toNat % 16)) = some c.toNat := by
  have h1 : c.toNat / 16 < 16 := by omega
  have h2 : c.toNat % 16 < 16 := by omega
  simp only [hex4, hexVal_zero, hexVal_hexDigit _ h1, hexVal_hexDigit _ h2]
  congr 1
  omega

theorem ofNat_toNat_self (c : Char) : Char.ofNat c.toNat = c := by
  simp [Char.ofNat_toNat]

/-- Every escape is at least one character long. -/
theorem quoteChar_length (c : Char) : 1 ≤ (quoteChar c).length := by
  unfold quoteChar
  split_ifs <;> simp

theorem quoteBody_length (s : List Char) : s.length ≤ (quoteBody s).length := by
  induction s with
  | nil => simp [quoteBody]
  | cons c cs ih =>
    have := quoteChar_length c
    simp only [quoteBody, List.length_append, List.length_cons]
    omega

/-- Parsing the escape of one character gives the character back. -/
theorem parseStringBody_quoteChar (fuel : Nat) (c : Char) (tl : List Char) :
    parseStringBody (fuel + 1) (quoteChar c ++ tl) = consChar c (parseStringBody fuel tl) := by
  unfold quoteChar
  split_ifs with h1 h2 h3 h4 h5 h6 h7 h8
  · subst h1
    simp [parseStringBody, parseEscape, bslash, dquote, unescape]
  · subst h2
    simp [parseStringBody, parseEscape, bslash, dquote, unescape]
  · subst h3
    simp [parseStringBody, parseEscape, bslash, dquote, unescape]
  · subst h4
    simp [parseStringBody, parseEscape, bslash, dquote, unescape]
  · subst h5
    simp [parseStringBody, parseEscape, bslash, dquote, unescape]
  · subst h6
    simp [parseStringBody, parseEscape, bslash, dquote, unescape]
  · subst h7
    simp [parseStringBody, parseEscape, bslash, dquote, unescape]
  · have hlt : c.toNat < 55296 ∨ 57344 ≤ c.toNat := Or.inl (by omega)
    simp [parseStringBody, parseEscape, parseUnicodeEscape, takeHex4, bslash, dquote,
      hex4_control c h8, hlt, ofNat_toNat_self]
  · simp [parseStringBody, h1, h2, h8]

/-- Parsing the escaped body of a string up to the closing quote gives the
string back, with any fuel above the length of the string. -/
theorem parseStringBody_quoteBody (s : List Char) :
    ∀ (fuel : Nat) (rest : List Char), s.length < fuel →
      parseStringBody fuel (quoteBody s ++ dquote :: rest) = some (s, rest) := by
  induction s with
  | nil =>
    intro fuel rest hf
    obtain ⟨f, rfl⟩ : ∃ f, fuel = f + 1 := ⟨fuel - 1, by simp at hf; omega⟩
    simp [quoteBody, parseStringBody]
  | cons c cs ih =>
    intro fuel rest hf
    obtain ⟨f, rfl⟩ : ∃ f, fuel = f + 1 := ⟨fuel - 1, by simp at hf; omega⟩
    simp only [quoteBody, List.append_assoc]
    rw [parseStringBody_quoteChar, ih f rest (by simpa using hf)]
    rfl

/-- Parsing a quoted string after its opening quote gives the string back. -/
theorem parseString_quoteBody (s : List Char) (rest : List Char) :
    parseString (quoteBody s ++ dquote :: rest) = some (s, rest) := by
  unfold parseString
  apply parseStringBody_quoteBody
  have := quoteBody_length s
  simp only [List.length_append, List.length_cons]
  omega

/-! ## The JSON codec: numbers -/

theorem digitChar_toNat (k : Nat) (h : k < 10) : (Char.ofNat (48 + k)).toNat = 48 + k := by
  interval_cases k <;> rfl

theorem isDigit_digitChar (k : Nat) (h : k < 10) : isDigit (Char.ofNat (48 + k)) = true := by
  simp [isDigit, digitChar_toNat k h]
  omega

theorem digitChar_eq_zero (k : Nat) (h : k < 10) (h0 : Char.ofNat (48 + k) = '0') : k = 0 := by
  have := congrArg Char.toNat h0
  rw [digitChar_toNat k h] at this
  have h48 : ('0' : Char).toNat = 48 := rfl
  omega

/-- The value of digits read after an initial value. -/
theorem foldl_digits (ds : List Char) :
    ∀ init : Nat, ds.foldl (fun acc c => acc * 10 + (c.toNat - 48)) init =
      init * 10 ^ ds.length + digitsValue ds := by
  induction ds with
  | nil =>
    intro init
    simp [digitsValue]
  | cons d ds ih =>
    intro init
    simp only [digitsValue, List.foldl_cons, List.length_cons]
    rw [ih (init * 10 + (d.toNat - 48)), ih (0 * 10 + (d.toNat - 48))]
    simp only [digitsValue]
    ring

theorem digitsValue_cons (d : Char) (ds : List Char) :
    digitsValue (d :: ds) = (d.toNat - 48) * 10 ^ ds.length + digitsValue ds := by
  have h := foldl_digits ds (0 * 10 + (d.toNat - 48))
  simp only [digitsValue, List.foldl_cons] at h ⊢
  rw [h]
  simp [digitsValue]

/-- What `decDigits` produces: digits only, with the value of the number in
front of the accumulator, and no leading zero except for zero itself. -/
theorem decDigits_spec (fuel : Nat) :
    ∀ (n : Nat) (acc : List Char), n < fuel → (∀ c ∈ acc, isDigit c = true) →
      (∀ c ∈ decDigits fuel n acc, isDigit c = true) ∧
      digitsValue (decDigits fuel n acc) = n * 10 ^ acc.length + digitsValue acc ∧
      ∃ d ds, decDigits fuel n acc = d :: ds ∧ (d = '0' → n = 0 ∧ ds = acc) := by
  induction fuel with
  | zero =>
    intro n acc h
    omega
  | succ f ih =>
    intro n acc hn hacc
    have hmod : n % 10 < 10 := Nat.mod_lt _ (by decide)
    have hacc1 : ∀ c ∈ Char.ofNat (48 + n % 10) :: acc, isDigit c = true := by
      intro c hc
      rcases List.mem_cons.mp hc with h | h
      · rw [h]
        exact isDigit_digitChar _ hmod
      · exact hacc c h
    by_cases h0 : n / 10 = 0
    · have hlt : n < 10 := by omega
      have hmodn : n % 10 = n := Nat.mod_eq_of_lt hlt
      simp only [decDigits, h0, if_true]
      refine ⟨hacc1, ?_, _, _, rfl, ?_⟩
      · rw [digitsValue_cons, digitChar_toNat _ hmod, hmodn]
        simp
      · intro hd
        have := digitChar_eq_zero _ hmod hd
        exact ⟨by omega, rfl⟩
    · simp only [decDigits, h0, if_false]
      obtain ⟨hall, hval, d, ds, hds, hzero⟩ := ih (n / 10) (Char.ofNat (48 + n % 10) :: acc)
        (by omega) hacc1
      refine ⟨hall, ?_, d, ds, hds, ?_⟩
      · rw [hval, digitsValue_cons, digitChar_toNat _ hmod]
        simp only [List.length_cons, Nat.add_sub_cancel_left]
        have hdm := Nat.div_add_mod n 10
        have : n * 10 ^ acc.length = (10 * (n / 10) + n % 10) * 10 ^ acc.length := by
          rw [hdm]
        rw [this, pow_succ]
        ring
      · intro hd
        exact absurd (hzero hd).1 h0

/-- The digits of a number form the longest prefix of digits when what
follows does not start with a digit. -/
theorem spanDigits_append (ds rest : List Char) (hds : ∀ c ∈ ds, isDigit c = true)
    (hrest : ∀ c tl, rest = c :: tl → isDigit c = false) :
    spanDigits (ds ++ rest) = (ds, rest) := by
  induction ds with
  | nil =>
    cases rest with
    | nil => rfl
    | cons c tl =>
      simp [spanDigits, hrest c tl rfl]
  | cons d ds ih =>
    have hd : isDigit d = true := hds d (List.mem_cons_self _ _)
    have ih1 := ih (fun c hc => hds c (List.mem_cons_of_mem _ hc))
    simp [spanDigits, hd, ih1]

theorem numberEnd_head (rest : List Char) (h : numberEnd rest = true) :
    ∀ c tl, rest = c :: tl → isDigit c = false := by
  intro c tl hc
  subst hc
  simp only [numberEnd, Bool.and_eq_true, Bool.not_eq_true'] at h
  exact h.1

/-- Reading back the numeral of a natural number. -/
theorem parseNat_natToDec (n : Nat) (rest : List Char) (hrest : numberEnd rest = true) :
    parseNat (natToDec n ++ rest) = some (n, rest) := by
  obtain ⟨hall, hval, d, ds, hds, hzero⟩ := decDigits_spec (n + 1) n [] (by omega)
    (by simp)
  have hspan := spanDigits_append (natToDec n) rest hall (numberEnd_head rest hrest)
  have hv : digitsValue (natToDec n) = n := by
    unfold natToDec
    rw [hval]
    simp [digitsValue]
  unfold parseNat
  rw [hspan]
  unfold natToDec at hv ⊢
  rw [hds] at hv ⊢
  have hlead : ¬ (d = '0' ∧ ds ≠ []) := by
    rintro ⟨h0, hne⟩
    exact hne (hzero h0).2
  simp only [hlead, if_false]
  cases rest with
  | nil => simp [hv]
  | cons c tl =>
    simp only [numberEnd, Bool.and_eq_true, Bool.not_eq_true', Bool.or_eq_false_iff,
      decide_eq_false_iff_not] at hrest
    have hc : ¬ (c = '.' ∨ c = 'e' ∨ c = 'E') := by
      rintro (h | h | h)
      · exact hrest.2.1.1 h
      · exact hrest.2.1.2 h
      · exact hrest.2.2 h
    simp [hc, hv]

/-- The numeral of a natural number starts with a digit. -/
theorem natToDec_head (n : Nat) : ∃ d ds, natToDec n = d :: ds ∧ isDigit d = true := by
  obtain ⟨hall, _, d, ds, hds, _⟩ := decDigits_spec (n + 1) n [] (by omega) (by simp)
  refine ⟨d, ds, hds, hall d ?_⟩
  rw [hds]
  exact List.mem_cons_self _ _

/-- Reading back the numeral of an integer. -/
theorem parseNumber_intToDec (n : Int) (rest : List Char) (hrest : numberEnd rest = true) :
    parseNumber (intToDec n ++ rest) = some (Json.num n, rest) := by
  cases n with
  | ofNat k =>
    obtain ⟨d, ds, hds, hd⟩ := natToDec_head k
    have hp := parseNat_natToDec k rest hrest
    simp only [intToDec]
    rw [hds] at hp ⊢
    have hminus : d ≠ '-' := by
      intro h
      rw [h] at hd
      exact absurd hd (by decide)
    simp only [List.cons_append] at hp ⊢
    simp only [parseNumber, hminus, if_false, hp]
    rfl
  | negSucc k =>
    have hp := parseNat_natToDec (k + 1) rest hrest
    simp only [intToDec, List.cons_append, parseNumber, if_true, hp]
    rfl

/-! ## The JSON codec: values -/

theorem skipWs_cons (c : Char) (tl : List Char) (h : isJsonWs c = false) :
    skipWs (c :: tl) = c :: tl := by
  simp [skipWs, h]

/-- A digit is none of the characters that steer the parser. -/
theorem isDigit_props (d : Char) (h : isDigit d = true) :
    isJsonWs d = false ∧ d ≠ dquote ∧ d ≠ '[' ∧ d ≠ ']' ∧ d ≠ lbrace ∧ d ≠ rbrace ∧
      d ≠ 'n' ∧ d ≠ 't' ∧ d ≠ 'f' ∧ d ≠ '-' := by
  simp only [isDigit, Bool.and_eq_true, decide_eq_true_eq] at h
  have hne : ∀ k : Char, (k.toNat < 48 ∨ 57 < k.toNat) → d ≠ k := by
    intro k hk hdk
    rw [hdk] at h
    omega
  refine ⟨?_, hne _ (by decide), hne _ (by decide), hne _ (by decide), hne _ (by decide),
    hne _ (by decide), hne _ (by decide), hne _ (by decide), hne _ (by decide),
    hne _ (by decide)⟩
  have h1 := hne ' ' (by decide)
  have h2 := hne (Char.ofNat 9) (by decide)
  have h3 := hne (Char.ofNat 10) (by decide)
  have h4 := hne (Char.ofNat 13) (by decide)
  simp [isJsonWs, h1, h2, h3, h4]

/-- The numeral of an integer starts with a character that is neither white
space nor the start of another kind of value. -/
theorem intToDec_head (n : Int) :
    ∃ c tl, intToDec n = c :: tl ∧ isJsonWs c = false ∧ c ≠ dquote ∧ c ≠ '[' ∧ c ≠ ']' ∧
      c ≠ lbrace ∧ c ≠ rbrace ∧ c ≠ 'n' ∧ c ≠ 't' ∧ c ≠ 'f' := by
  cases n with
  | ofNat k =>
    obtain ⟨d, ds, hds, hd⟩ := natToDec_head k
    obtain ⟨p1, p2, p3, p4, p5, p6, p7, p8, p9, _⟩ := isDigit_props d hd
    exact ⟨d, ds, by simp [intToDec, hds], p1, p2, p3, p4, p5, p6, p7, p8, p9⟩
  | negSucc k =>
    exact ⟨'-', natToDec (k + 1), rfl, by decide, by decide, by decide, by decide, by decide,
      by decide, by decide, by decide, by decide⟩

/-- The text of a value starts with a character that is neither white space
nor a closing bracket or brace. -/
theorem stringify_head (v : Json) :
    ∃ c tl, stringify v = c :: tl ∧ isJsonWs c = false ∧ c ≠ ']' ∧ c ≠ rbrace := by
  cases v with
  | null => exact ⟨'n', _, rfl, by decide, by decide, by decide⟩
  | bool b =>
    cases b
    · exact ⟨'f', _, rfl, by decide, by decide, by decide⟩
    · exact ⟨'t', _, rfl, by decide, by decide, by decide⟩
  | num n =>
    obtain ⟨c, tl, h, p1, _, _, p4, _, p6, _⟩ := intToDec_head n
    exact ⟨c, tl, by simp [stringify, h], p1, p4, p6⟩
  | str s => exact ⟨dquote, _, rfl, by decide, by decide, by decide⟩
  | arr xs =>
    cases xs with
    | nil => exact ⟨'[', _, rfl, by decide, by decide, by decide⟩
    | cons x xs => exact ⟨'[', _, rfl, by decide, by decide, by decide⟩
  | obj kvs =>
    cases kvs with
    | nil => exact ⟨lbrace, _, rfl, by decide, by decide, by decide⟩
    | cons kv kvs =>
      obtain ⟨k, x⟩ := kv
      exact ⟨lbrace, _, rfl, by decide, by decide, by decide⟩

theorem Json.size_pos (v : Json) : 1 ≤ v.size := by
  cases v <;> simp [Json.size]

theorem numberEnd_elems (vs : List Json) (rest : List Char) :
    numberEnd (stringifyElems vs ++ rest) = true := by
  cases vs <;> simp [stringifyElems, numberEnd, isDigit]

theorem numberEnd_members (kvs : List (String × Json)) (rest : List Char) :
    numberEnd (stringifyMembers kvs ++ rest) = true := by
  cases kvs with
  | nil => simp [stringifyMembers, numberEnd, isDigit, rbrace]
  | cons kv kvs =>
    obtain ⟨k, x⟩ := kv
    simp [stringifyMembers, numberEnd, isDigit]

/-- Parsing the text of a value, of the elements of an array, and of the
members of an object gives them back, with any fuel above their size. -/
theorem parse_stringify (fuel : Nat) :
    (∀ (v : Json) (rest : List Char), v.size ≤ fuel → numberEnd rest = true →
      parseValue fuel (stringify v ++ rest) = some (v, rest)) ∧
    (∀ (v : Json) (vs : List Json) (rest : List Char), sizeElems (v :: vs) ≤ fuel →
      parseElems fuel (stringify v ++ (stringifyElems vs ++ rest)) = some (v :: vs, rest)) ∧
    (∀ (k : String) (v : Json) (kvs : List (String × Json)) (rest : List Char),
      sizeMembers ((k, v) :: kvs) ≤ fuel →
      parseMembers fuel
          (quoteString k ++ ':' :: (stringify v ++ (stringifyMembers kvs ++ rest))) =
        some ((k, v) :: kvs, rest)) := by
  induction fuel with
  | zero =>
    refine ⟨?_, ?_, ?_⟩
    · intro v rest h
      have := v.size_pos
      omega
    · intro v vs rest h
      simp only [sizeElems] at h
      omega
    · intro k v kvs rest h
      simp only [sizeMembers] at h
      omega
  | succ f ih =>
    obtain ⟨ihV, ihE, ihM⟩ := ih
    refine ⟨?_, ?_, ?_⟩
    · intro v rest hsz hend
      cases v with
      | null =>
        simp only [stringify, List.cons_append, List.nil_append]
        rw [parseValue, skipWs_cons _ _ (by decide)]
        simp [dquote, lbrace, expect]
      | bool b =>
        cases b
        · simp only [stringify, List.cons_append, List.nil_append]
          rw [parseValue, skipWs_cons _ _ (by decide)]
          simp [dquote, lbrace, expect]
        · simp only [stringify, List.cons_append, List.nil_append]
          rw [parseValue, skipWs_cons _ _ (by decide)]
          simp [dquote, lbrace, expect]
      | num n =>
        have hnum := parseNumber_intToDec n rest hend
        obtain ⟨c, tl, hc, p1, p2, p3, _, p5, _, p7, p8, p9⟩ := intToDec_head n
        simp only [stringify]
        rw [hc] at hnum ⊢
        simp only [List.cons_append] at hnum ⊢
        rw [parseValue, skipWs_cons _ _ p1]
        simp only [p2, p3, p5, p7, p8, p9, if_false]
        exact hnum
      | str s =>
        simp only [stringify, quoteString, List.cons_append, List.append_assoc,
          List.nil_append]
        rw [parseValue, skipWs_cons _ _ (by decide)]
        simp only [if_true, parseString_quoteBody]
      | arr xs =>
        cases xs with
        | nil =>
          simp only [stringify, List.cons_append, List.nil_append]
          rw [parseValue, skipWs_cons _ _ (by decide)]
          have h1 : ('[' : Char) ≠ dquote := by decide
          simp only [h1, if_false, if_true]
          rw [skipWs_cons _ _ (by decide)]
          simp
        | cons x xs =>
          obtain ⟨c, tl, hc, q1, q2, _⟩ := stringify_head x
          have hE := ihE x xs rest (by
            simp only [Json.size] at hsz
            omega)
          simp only [stringify, List.cons_append, List.append_assoc]
          rw [hc] at hE ⊢
          simp only [List.cons_append] at hE ⊢
          rw [parseValue, skipWs_cons _ _ (by decide)]
          have h1 : ('[' : Char) ≠ dquote := by decide
          simp only [h1, if_false, if_true]
          rw [skipWs_cons _ _ q1]
          simp only [q2, if_false, hE]
      | obj kvs =>
        cases kvs with
        | nil =>
          simp only [stringify, List.cons_append, List.nil_append]
          rw [parseValue, skipWs_cons _ _ (by decide)]
          have h1 : lbrace ≠ dquote := by decide
          have h2 : lbrace ≠ '[' := by decide
          simp only [h1, h2, if_false, if_true]
          rw [skipWs_cons _ _ (by decide)]
          simp
        | cons kv kvs =>
          obtain ⟨k, x⟩ := kv
          have hM := ihM k x kvs rest (by
            simp only [Json.size] at hsz
            omega)
          simp only [stringify, List.cons_append, List.append_assoc]
          simp only [quoteString, List.cons_append, List.append_assoc] at hM ⊢
          rw [parseValue, skipWs_cons _ _ (by decide)]
          have h1 : lbrace ≠ dquote := by decide
          have h2 : lbrace ≠ '[' := by decide
          have h3 : dquote ≠ rbrace := by decide
          simp only [h1, h2, if_false, if_true]
          rw [skipWs_cons _ _ (by decide)]
          simp only [h3, if_false, hM]
    · intro v vs rest hsz
      simp only [sizeElems] at hsz
      have hV := ihV v (stringifyElems vs ++ rest) (by omega) (numberEnd_elems vs rest)
      rw [parseElems]
      simp only [hV]
      cases vs with
      | nil =>
        simp only [stringifyElems, List.cons_append, List.nil_append]
        rw [skipWs_cons _ _ (by decide)]
        have h1 : (']' : Char) ≠ ',' := by decide
        simp only [h1, if_false, if_true]
      | cons w ws =>
        have hE := ihE w ws rest (by
          simp only [sizeElems] at hsz ⊢
          omega)
        simp only [stringifyElems, List.cons_append, List.append_assoc]
        rw [skipWs_cons _ _ (by decide)]
        simp only [if_true, hE]
    · intro k v kvs rest hsz
      simp only [sizeMembers] at hsz
      have hV := ihV v (stringifyMembers kvs ++ rest) (by omega) (numberEnd_members kvs rest)
      simp only [quoteString, List.cons_append, List.append_assoc, List.nil_append]
      rw [parseMembers, skipWs_cons _ _ (by decide)]
      simp only [if_true, parseString_quoteBody]
      rw [skipWs_cons _ _ (by decide)]
      simp only [if_true, hV]
      cases kvs with
      | nil =>
        simp only [stringifyMembers, List.cons_append, List.nil_append]
        rw [skipWs_cons _ _ (by decide)]
        have h1 : rbrace ≠ ',' := by decide
        simp only [h1, if_false, if_true]
      | cons kv kvs =>
        obtain ⟨k1, w⟩ := kv
        have hM := ihM k1 w kvs rest (by
          simp only [sizeMembers] at hsz ⊢
          omega)
        simp only [stringifyMembers, List.cons_append, List.append_assoc]
        rw [skipWs_cons _ _ (by decide)]
        simp only [if_true, hM]

theorem natToDec_length (n : Nat) : 1 ≤ (natToDec n).length := by
  obtain ⟨d, ds, hds, _⟩ := natToDec_head n
  rw [hds]
  simp

theorem intToDec_length (n : Int) : 1 ≤ (intToDec n).length := by
  obtain ⟨c, tl, hc, _⟩ := intToDec_head n
  rw [hc]
  simp

/-- The text of a value is at least as long as the value is large. -/
theorem size_le_length (n : Nat) :
    (∀ v : Json, v.size ≤ n → v.size ≤ (stringify v).length) ∧
    (∀ vs : List Json, sizeElems vs ≤ n → sizeElems vs + 1 ≤ (stringifyElems vs).length) ∧
    (∀ kvs : List (String × Json), sizeMembers kvs ≤ n →
      sizeMembers kvs + 1 ≤ (stringifyMembers kvs).length) := by
  induction n with
  | zero =>
    refine ⟨?_, ?_, ?_⟩
    · intro v h
      have := v.size_pos
      omega
    · intro vs h
      cases vs with
      | nil => simp [sizeElems, stringifyElems]
      | cons v vs =>
        simp only [sizeElems] at h
        omega
    · intro kvs h
      cases kvs with
      | nil => simp [sizeMembers, stringifyMembers]
      | cons kv kvs =>
        obtain ⟨k, v⟩ := kv
        simp only [sizeMembers] at h
        omega
  | succ m ih =>
    obtain ⟨ihV, ihE, ihM⟩ := ih
    refine ⟨?_, ?_, ?_⟩
    · intro v h
      cases v with
      | null => simp [Json.size, stringify]
      | bool b => cases b <;> simp [Json.size, stringify]
      | num k =>
        have := intToDec_length k
        simp only [Json.size, stringify]
        omega
      | str s => simp [Json.size, stringify, quoteString]
      | arr xs =>
        cases xs with
        | nil => simp [Json.size, stringify, sizeElems]
        | cons x xs =>
          simp only [Json.size, sizeElems] at h ⊢
          have h1 := ihV x (by omega)
          have h2 := ihE xs (by omega)
          simp only [stringify, List.length_cons, List.length_append]
          omega
      | obj kvs =>
        cases kvs with
        | nil => simp [Json.size, stringify, sizeMembers]
        | cons kv kvs =>
          obtain ⟨k, x⟩ := kv
          simp only [Json.size, sizeMembers] at h ⊢
          have h1 := ihV x (by omega)
          have h2 := ihM kvs (by omega)
          simp only [stringify, List.length_cons, List.length_append]
          omega
    · intro vs h
      cases vs with
      | nil => simp [sizeElems, stringifyElems]
      | cons v vs =>
        simp only [sizeElems] at h ⊢
        have h1 := ihV v (by omega)
        have h2 := ihE vs (by omega)
        simp only [stringifyElems, List.length_cons, List.length_append]
        omega
    · intro kvs h
      cases kvs with
      | nil => simp [sizeMembers, stringifyMembers]
      | cons kv kvs =>
        obtain ⟨k, v⟩ := kv
        simp only [sizeMembers] at h ⊢
        have h1 := ihV v (by omega)
        have h2 := ihM kvs (by omega)
        simp only [stringifyMembers, List.length_cons, List.length_append]
        omega

/-- `JSON.parse` of `JSON.stringify` of a value is the value. -/
theorem jsonParse_jsonStringify (v : Json) : jsonParse (jsonStringify v) = some v := by
  have hlen := (size_le_length v.size).1 v (le_refl _)
  have h := (parse_stringify ((stringify v).length + 1)).1 v [] (by omega) rfl
  rw [List.append_nil] at h
  simp [jsonParse, jsonStringify, h, skipWs]

/-- The text of a state is not the empty string. -/
theorem jsonStringify_toJson_ne_empty (s : State) : jsonStringify s.toJson ≠ "" := by
  intro h
  have h1 := congrArg String.data h
  simp [jsonStringify, State.toJson, stringify] at h1

/-- The spread of the parsed record of a state over any state is the recorded
state. -/
theorem mergeParsed_toJson (mem s : State) : mergeParsed mem s.toJson = some s := by
  cases hd : s.lastLogDate with
  | none =>
    simp [mergeParsed, State.toJson, mergeNum, mergeDate, mergeHistory, lookupLast, hd]
    cases s
    simp_all
  | some d =>
    simp [mergeParsed, State.toJson, mergeNum, mergeDate, mergeHistory, lookupLast, hd]
    cases s
    simp_all

/-! ## Persistence -/

/-- C6: `saveData` followed by `loadData` reproduces the saved state in every
field, whatever state is in memory when `loadData` runs: for an application `a`
and any application `b` whose storage holds what `saveData` wrote for `a`,
`loadData` succeeds and replaces the state of `b` by the state of `a`. -/
theorem save_load_roundtrip (a b : App) :
    loadData { b with storage := (saveData a).storage } =
      some { b with storage := (saveData a).storage, state := a.state } := by
  simp [loadData, saveData, jsonStringify_toJson_ne_empty, jsonParse_jsonStringify,
    mergeParsed_toJson]

/-! ## Scenarios -/

/-- The text `saveData` writes for a fresh installation. -/
theorem saveData_freshApp_text :
    (saveData freshApp).storage =
      some "\x7b\"currentIntake\":0,\"dailyGoal\":2500,\"streak\":0,\"lastLogDate\":null,\"history\":[]\x7d" := by
  decide

/-- Loading a record that has only some of the fields, written with white
space, overrides those fields and keeps the others. -/
theorem loadData_partial_record :
    (loadData { freshApp with storage := some " \x7b \"streak\" : 7, \"currentIntake\":250 \x7d " }).map
        (fun a => (a.state.currentIntake, a.state.dailyGoal, a.state.streak, a.state.lastLogDate)) =
      some (250, 2500, 7, none) := by
  decide

/-- Scenario of the fresh installation: `addWater(2500)` gives intake 2500,
streak 1, percentage 100 and remaining 0. -/
theorem scenario_fresh_install :
    (addWater "Wed Nov 04 2026" 2500 freshApp).state.currentIntake = 2500 ∧
    (addWater "Wed Nov 04 2026" 2500 freshApp).state.streak = 1 ∧
    (addWater "Wed Nov 04 2026" 2500 freshApp).view.percentage = Percent.fin 100 ∧
    (addWater "Wed Nov 04 2026" 2500 freshApp).view.remaining = 0 := by
  decide

/-- Scenario of four additions of 600 ml from 0 with goal 2500: intake 2400,
percentage 96, remaining 100, streak 0. -/
theorem scenario_four_additions :
    (runOps "Wed Nov 04 2026" [Op.add 600, Op.add 600, Op.add 600, Op.add 600]
      freshApp).state.currentIntake = 2400 ∧
    (runOps "Wed Nov 04 2026" [Op.add 600, Op.add 600, Op.add 600, Op.add 600]
      freshApp).view.percentage = Percent.fin 96 ∧
    (runOps "Wed Nov 04 2026" [Op.add 600, Op.add 600, Op.add 600, Op.add 600]
      freshApp).view.remaining = 100 ∧
    (runOps "Wed Nov 04 2026" [Op.add 600, Op.add 600, Op.add 600, Op.add 600]
      freshApp).state.streak = 0 := by
  decide

/-- Start-up on a later day from the record of the day before: the intake is
reset, the streak is kept. -/
theorem scenario_next_day :
    (init "Thu Nov 05 2026"
      { freshApp with storage := (addWater "Wed Nov 04 2026" 2500 freshApp).storage }).map
        (fun a => (a.state.currentIntake, a.state.streak, a.state.lastLogDate)) =
      some (0, 1, some "Thu Nov 05 2026") := by
  decide

end Hydra
